import Mathlib

/-!
Verification model of the tree-nvim-rs flattened-tree state engine.

This file gives a shallow embedding of the core state engine of the
repository (src/tree.rs and src/column.rs): the flattened `FileItem`
list, the per-column cell layout, the expand store, the selection set,
and the operations `open_tree`, `close_tree`, `change_root`,
`redraw_subtree`, `update_cells`, `insert_items_and_cells`,
`remove_items_and_cells`, `entry_info_recursively_sync`,
`make_cells` and `ColumnCell::new`, together with the rename-action
decision logic and the column-name parsing of `Config::update`.

Modelling conventions:
- The filesystem is an abstract structure `Fs` giving directory
  listings (`std::fs::read_dir` plus per-entry metadata) and `stat`
  (`std::fs::metadata`); filesystem mutation primitives are external
  collaborators and are not interpreted.
- `HashSet<usize>` becomes `Finset Nat`; `HashMap<String, bool>`
  becomes an association list; the per-column cell map becomes a total
  function `ColumnType -> List Cell` defaulting to the empty list,
  which is observationally the code `HashMap` (a missing key and an
  empty vector are indistinguishable to the splicing code).
- Rust `Arc<FileItem>` sharing with in-place `id` mutation becomes a
  pure list of values whose `id` fields are rewritten positionally;
  none of the verified operations reads an `id` through a parent link.
- The unbounded filesystem recursion of
  `entry_info_recursively_sync` takes an explicit fuel parameter; all
  theorems below hold for every fuel value.
- Neovim buffer and highlight calls (`buf_set_lines`, `hl_lines`),
  the cursor history, the git repository handle and the `targets`
  field are external effects or dead state not touched by the
  verified claims and are omitted from the state; the git column is
  unimplemented in `ColumnCell::new` (it always renders empty text).
-/

/-- Filesystem metadata as consumed by the engine: `Metadata::is_dir`,
`Metadata::permissions().readonly()` and
`Metadata::file_type().is_symlink()`. -/
structure FsMeta where
  isDir : Bool
  readonly : Bool
  isSymlink : Bool
deriving DecidableEq, Repr

/-- Abstract filesystem collaborator. `readDir p` models
`std::fs::read_dir(p)` zipped with each entry metadata (file name plus
metadata, in on-disk order); `stat p` models `std::fs::metadata(p)`,
`None` meaning that the path does not exist. -/
structure Fs where
  readDir : String → List (String × FsMeta)
  stat : String → Option FsMeta

/-- One node of the flattened tree (column.rs `struct FileItem`).
Fields in source order: path, metadata, level, parent, last, id. The
parent link holds a snapshot of the parent node, mirroring the
`Arc<FileItem>` reference of the source. -/
inductive FileItem where
  | mk (path : String) (metadata : FsMeta) (level : Int)
       (parent : Option FileItem) (last : Bool) (id : Nat)

/-- Path of a file item. -/
def FileItem.path : FileItem → String
  | .mk p _ _ _ _ _ => p

/-- Metadata of a file item. -/
def FileItem.metadata : FileItem → FsMeta
  | .mk _ m _ _ _ _ => m

/-- Depth of a file item; `FileItem::new` initialises it to `-1` and
the scanner overwrites it with parent level plus one. -/
def FileItem.level : FileItem → Int
  | .mk _ _ l _ _ _ => l

/-- Parent link of a file item. -/
def FileItem.parent : FileItem → Option FileItem
  | .mk _ _ _ par _ _ => par

/-- Last-sibling flag of a file item. -/
def FileItem.last : FileItem → Bool
  | .mk _ _ _ _ la _ => la

/-- Position id of a file item. -/
def FileItem.id : FileItem → Nat
  | .mk _ _ _ _ _ i => i

/-- Rewrite the `id` field, modelling the in-place
`(&mut *(fi as *const FileItem as *mut FileItem)).id = i` writes of
`remove_items_and_cells` and `insert_items_and_cells`. -/
def FileItem.setId : FileItem → Nat → FileItem
  | .mk p m l par la _, i => .mk p m l par la i

/-- Constructor used by the engine (column.rs `FileItem::new`): level
starts at `-1`, no parent, not last. -/
def FileItem.new (path : String) (metadata : FsMeta) (id : Nat) : FileItem :=
  .mk path metadata (-1) none false id

/-- One rendered cell of a (row, column) pair (column.rs
`struct ColumnCell`). -/
structure Cell where
  colStart : Nat
  colEnd : Nat
  byteStart : Nat
  byteEnd : Nat
  text : String
  hlGroup : Option String
deriving DecidableEq, Repr

/-- Column kinds (column.rs `enum ColumnType`). -/
inductive ColumnType where
  | MARK
  | INDENT
  | GIT
  | ICON
  | FILENAME
  | SIZE
  | TIME
deriving DecidableEq, Repr

/-- Gui color names (column.rs `enum GuiColor`). -/
inductive GuiColor where
  | BROWN
  | AQUA
  | BLUE
  | DARKBLUE
  | PURPLE
  | LIGHTPURPLE
  | RED
  | BEIGE
  | YELLOW
  | ORANGE
  | DARKORANGE
  | PINK
  | SALMON
  | GREEN
  | LIGHTGREEN
  | WHITE
deriving DecidableEq, Repr

/-- Highlight group of a gui color (column.rs `GuiColor::hl_group_name`). -/
def GuiColor.hlGroupName : GuiColor → String
  | .BROWN => "tree_color_brow"
  | .AQUA => "tree_color_aqua"
  | .BLUE => "tree_color_blue"
  | .DARKBLUE => "tree_color_darkblue"
  | .PURPLE => "tree_color_purple"
  | .LIGHTPURPLE => "tree_color_lightpurple"
  | .RED => "tree_color_red"
  | .BEIGE => "tree_color_beige"
  | .YELLOW => "tree_color_yellow"
  | .ORANGE => "tree_color_orange"
  | .DARKORANGE => "tree_color_darkorange"
  | .PINK => "tree_color_pink"
  | .SALMON => "tree_color_salmon"
  | .GREEN => "tree_color_green"
  | .LIGHTGREEN => "tree_color_lightgreen"
  | .WHITE => "tree_color_white"
/-- File-type icon kinds (column.rs `enum Icon`). -/
inductive Icon where
  | FolderClosed
  | FolderOpened
  | FolderSymlink
  | File
  | FileSymlink
  | FileHidden
  | Excel
  | Word
  | Ppt
  | Stylus
  | Sass
  | Html
  | Xml
  | Ejs
  | Css
  | Webpack
  | Markdown
  | Json
  | Javascript
  | Javascriptreact
  | Ruby
  | Php
  | Python
  | Coffee
  | Mustache
  | Conf
  | Image
  | Ico
  | Twig
  | C
  | H
  | Haskell
  | Lua
  | Java
  | Terminal
  | Ml
  | Diff
  | Sql
  | Clojure
  | Edn
  | Scala
  | Go
  | Dart
  | Firefox
  | Vs
  | Perl
  | Rss
  | Fsharp
  | Rust
  | Dlang
  | Erlang
  | Elixir
  | Mix
  | Vim
  | Ai
  | Psd
  | Psb
  | Typescript
  | Typescriptreact
  | Julia
  | Puppet
  | Vue
  | Swift
  | Gitconfig
  | Bashrc
  | Favicon
  | Docker
  | Gruntfile
  | Gulpfile
  | Dropbox
  | License
  | Procfile
  | Jquery
  | Angular
  | Backbone
  | Requirejs
  | Materialize
  | Mootools
  | Vagrant
  | Svg
  | Font
  | Text
  | Archive
  | Unknown
deriving DecidableEq, Repr

/-- Extension-to-icon lookup table (column.rs `impl From<&str> for Icon`). -/
def iconOfStr (s : String) : Icon :=
  match s with
  | "styl" => Icon.Stylus
  | "sass" => Icon.Sass
  | "scss" => Icon.Sass
  | "htm" => Icon.Html
  | "html" => Icon.Html
  | "slim" => Icon.Html
  | "xml" => Icon.Xml
  | "xaml" => Icon.Xml
  | "ejs" => Icon.Ejs
  | "css" => Icon.Css
  | "less" => Icon.Css
  | "md" => Icon.Markdown
  | "mdx" => Icon.Markdown
  | "markdown" => Icon.Markdown
  | "rmd" => Icon.Markdown
  | "json" => Icon.Json
  | "js" => Icon.Javascript
  | "es6" => Icon.Javascript
  | "jsx" => Icon.Javascriptreact
  | "rb" => Icon.Ruby
  | "ru" => Icon.Ruby
  | "php" => Icon.Php
  | "py" => Icon.Python
  | "pyc" => Icon.Python
  | "pyo" => Icon.Python
  | "pyd" => Icon.Python
  | "coffee" => Icon.Coffee
  | "mustache" => Icon.Mustache
  | "hbs" => Icon.Mustache
  | "config" => Icon.Conf
  | "conf" => Icon.Conf
  | "ini" => Icon.Conf
  | "yml" => Icon.Conf
  | "yaml" => Icon.Conf
  | "toml" => Icon.Conf
  | "jpg" => Icon.Image
  | "jpeg" => Icon.Image
  | "bmp" => Icon.Image
  | "png" => Icon.Image
  | "gif" => Icon.Image
  | "ico" => Icon.Ico
  | "twig" => Icon.Twig
  | "cpp" => Icon.C
  | "c++" => Icon.C
  | "cxx" => Icon.C
  | "cc" => Icon.C
  | "cp" => Icon.C
  | "c" => Icon.C
  | "h" => Icon.H
  | "hpp" => Icon.H
  | "hxx" => Icon.H
  | "hs" => Icon.Haskell
  | "lhs" => Icon.Haskell
  | "lua" => Icon.Lua
  | "java" => Icon.Java
  | "jar" => Icon.Java
  | "sh" => Icon.Terminal
  | "fish" => Icon.Terminal
  | "bash" => Icon.Terminal
  | "zsh" => Icon.Terminal
  | "ksh" => Icon.Terminal
  | "csh" => Icon.Terminal
  | "awk" => Icon.Terminal
  | "ps1" => Icon.Terminal
  | "bat" => Icon.Terminal
  | "cmd" => Icon.Terminal
  | "ml" => Icon.Ml
  | "mli" => Icon.Ml
  | "diff" => Icon.Diff
  | "db" => Icon.Sql
  | "sql" => Icon.Sql
  | "dump" => Icon.Sql
  | "accdb" => Icon.Sql
  | "clj" => Icon.Clojure
  | "cljc" => Icon.Clojure
  | "cljs" => Icon.Clojure
  | "edn" => Icon.Edn
  | "scala" => Icon.Scala
  | "go" => Icon.Go
  | "dart" => Icon.Dart
  | "xul" => Icon.Firefox
  | "sln" => Icon.Vs
  | "suo" => Icon.Vs
  | "pl" => Icon.Perl
  | "pm" => Icon.Perl
  | "t" => Icon.Perl
  | "rss" => Icon.Rss
  | "f#" => Icon.Fsharp
  | "fsscript" => Icon.Fsharp
  | "fsx" => Icon.Fsharp
  | "fs" => Icon.Fsharp
  | "fsi" => Icon.Fsharp
  | "rs" => Icon.Rust
  | "rlib" => Icon.Rust
  | "d" => Icon.Dlang
  | "erl" => Icon.Erlang
  | "hrl" => Icon.Erlang
  | "ex" => Icon.Elixir
  | "exs" => Icon.Elixir
  | "exx" => Icon.Elixir
  | "leex" => Icon.Elixir
  | "vim" => Icon.Vim
  | "ai" => Icon.Ai
  | "psd" => Icon.Psd
  | "psb" => Icon.Psd
  | "ts" => Icon.Typescript
  | "tsx" => Icon.Javascriptreact
  | "jl" => Icon.Julia
  | "pp" => Icon.Puppet
  | "vue" => Icon.Vue
  | "swift" => Icon.Swift
  | "xcplayground" => Icon.Swift
  | "svg" => Icon.Svg
  | "otf" => Icon.Font
  | "ttf" => Icon.Font
  | "fnt" => Icon.Font
  | "txt" => Icon.Text
  | "text" => Icon.Text
  | "zip" => Icon.Archive
  | "tar" => Icon.Archive
  | "gz" => Icon.Archive
  | "gzip" => Icon.Archive
  | "rar" => Icon.Archive
  | "7z" => Icon.Archive
  | "iso" => Icon.Archive
  | "doc" => Icon.Word
  | "docx" => Icon.Word
  | "docm" => Icon.Word
  | "csv" => Icon.Excel
  | "xls" => Icon.Excel
  | "xlsx" => Icon.Excel
  | "xlsm" => Icon.Excel
  | "ppt" => Icon.Ppt
  | "pptx" => Icon.Ppt
  | "pptm" => Icon.Ppt
  | _ => Icon.Unknown

/-- Highlight group of an icon (column.rs `Icon::hl_group_name`). -/
def Icon.hlGroupName : Icon -> String
  | .FolderClosed => "tree_icon_FolderClosed"
  | .FolderOpened => "tree_icon_FolderOpened"
  | .FolderSymlink => "tree_icon_FolderSymlink"
  | .File => "tree_icon_File"
  | .FileSymlink => "tree_icon_FileSymlink"
  | .FileHidden => "tree_icon_FileHidden"
  | .Excel => "tree_icon_Excel"
  | .Word => "tree_icon_Word"
  | .Ppt => "tree_icon_Ppt"
  | .Stylus => "tree_icon_Stylus"
  | .Sass => "tree_icon_Sass"
  | .Html => "tree_icon_Html"
  | .Xml => "tree_icon_Xml"
  | .Ejs => "tree_icon_Ejs"
  | .Css => "tree_icon_Css"
  | .Webpack => "tree_icon_Webpack"
  | .Markdown => "tree_icon_Markdown"
  | .Json => "tree_icon_Json"
  | .Javascript => "tree_icon_Javascript"
  | .Javascriptreact => "tree_icon_Javascriptreact"
  | .Ruby => "tree_icon_Ruby"
  | .Php => "tree_icon_Php"
  | .Python => "tree_icon_Python"
  | .Coffee => "tree_icon_Coffee"
  | .Mustache => "tree_icon_Mustache"
  | .Conf => "tree_icon_Conf"
  | .Image => "tree_icon_Image"
  | .Ico => "tree_icon_Ico"
  | .Twig => "tree_icon_Twig"
  | .C => "tree_icon_C"
  | .H => "tree_icon_H"
  | .Haskell => "tree_icon_Haskell"
  | .Lua => "tree_icon_Lua"
  | .Java => "tree_icon_Java"
  | .Terminal => "tree_icon_Terminal"
  | .Ml => "tree_icon_Ml"
  | .Diff => "tree_icon_Diff"
  | .Sql => "tree_icon_Sql"
  | .Clojure => "tree_icon_Clojure"
  | .Edn => "tree_icon_Edn"
  | .Scala => "tree_icon_Scala"
  | .Go => "tree_icon_Go"
  | .Dart => "tree_icon_Dart"
  | .Firefox => "tree_icon_Firefox"
  | .Vs => "tree_icon_Vs"
  | .Perl => "tree_icon_Perl"
  | .Rss => "tree_icon_Rss"
  | .Fsharp => "tree_icon_Fsharp"
  | .Rust => "tree_icon_Rust"
  | .Dlang => "tree_icon_Dlang"
  | .Erlang => "tree_icon_Erlang"
  | .Elixir => "tree_icon_Elixir"
  | .Mix => "tree_icon_Mix"
  | .Vim => "tree_icon_Vim"
  | .Ai => "tree_icon_Ai"
  | .Psd => "tree_icon_Psd"
  | .Psb => "tree_icon_Psb"
  | .Typescript => "tree_icon_Typescript"
  | .Typescriptreact => "tree_icon_Typescriptreact"
  | .Julia => "tree_icon_Julia"
  | .Puppet => "tree_icon_Puppet"
  | .Vue => "tree_icon_Vue"
  | .Swift => "tree_icon_Swift"
  | .Gitconfig => "tree_icon_Gitconfig"
  | .Bashrc => "tree_icon_Bashrc"
  | .Favicon => "tree_icon_Favicon"
  | .Docker => "tree_icon_Docker"
  | .Gruntfile => "tree_icon_Gruntfile"
  | .Gulpfile => "tree_icon_Gulpfile"
  | .Dropbox => "tree_icon_Dropbox"
  | .License => "tree_icon_License"
  | .Procfile => "tree_icon_Procfile"
  | .Jquery => "tree_icon_Jquery"
  | .Angular => "tree_icon_Angular"
  | .Backbone => "tree_icon_Backbone"
  | .Requirejs => "tree_icon_Requirejs"
  | .Materialize => "tree_icon_Materialize"
  | .Mootools => "tree_icon_Mootools"
  | .Vagrant => "tree_icon_Vagrant"
  | .Svg => "tree_icon_Svg"
  | .Font => "tree_icon_Font"
  | .Text => "tree_icon_Text"
  | .Archive => "tree_icon_Archive"
  | .Unknown => "tree_icon_Unknonwn"

/-- Glyph and color of an icon (column.rs `Icon::as_glyph_and_color`); glyphs written as unicode escapes. -/
def Icon.glyphAndColor : Icon -> String × String
  | .FolderClosed => ("\uE5FF", "#00afaf")
  | .FolderOpened => ("\uE5FE", "#00afaf")
  | .FolderSymlink => ("\uF482", "#00afaf")
  | .File => ("\uF723", "#999999")
  | .FileSymlink => ("\uF481", "#999999")
  | .FileHidden => ("\uFB12", "#999999")
  | .Excel => ("\uF71A", "#207245")
  | .Word => ("\uF72B", "#185abd")
  | .Ppt => ("\uF726", "#cb4a32")
  | .Stylus => ("\uE600", "#8dc149")
  | .Sass => ("\uE603", "#f55385")
  | .Html => ("\uE60E", "#e37933")
  | .Xml => ("\uFABF", "#e37933")
  | .Ejs => ("\uE618", "#cbcb41")
  | .Css => ("\uE614", "#519aba")
  | .Webpack => ("\uFC29", "#519aba")
  | .Markdown => ("\uE609", "#519aba")
  | .Json => ("\uE60B", "#cbcb41")
  | .Javascript => ("\uE60C", "#cbcb41")
  | .Javascriptreact => ("\uE7BA", "#519aba")
  | .Ruby => ("\uE791", "#cc3e44")
  | .Php => ("\uE608", "#a074c4")
  | .Python => ("\uE606", "#519aba")
  | .Coffee => ("\uE61B", "#cbcb41")
  | .Mustache => ("\uE60F", "#e37933")
  | .Conf => ("\uE615", "#6d8086")
  | .Image => ("\uE60D", "#a074c4")
  | .Ico => ("\uE60D", "#cbcb41")
  | .Twig => ("\uE61C", "#8dc149")
  | .C => ("\uE61D", "#519aba")
  | .H => ("\uF0FD", "#a074c4")
  | .Haskell => ("\uE61F", "#a074c4")
  | .Lua => ("\uE620", "#519aba")
  | .Java => ("\uE738", "#cc3e44")
  | .Terminal => ("\uE795", "#4d5a5e")
  | .Ml => ("\u03BB", "#e37933")
  | .Diff => ("\uE728", "#41535b")
  | .Sql => ("\uE706", "#f55385")
  | .Clojure => ("\uE768", "#8dc149")
  | .Edn => ("\uE76A", "#519aba")
  | .Scala => ("\uE737", "#cc3e44")
  | .Go => ("\uE627", "#519aba")
  | .Dart => ("\uE798", "#03589C")
  | .Firefox => ("\uE745", "#e37933")
  | .Vs => ("\uE70C", "#854CC7")
  | .Perl => ("\uE769", "#519aba")
  | .Rss => ("\uE619", "#FB9D3B")
  | .Fsharp => ("\uE7A7", "#519aba")
  | .Rust => ("\uE7A8", "#519aba")
  | .Dlang => ("\uE7AF", "#cc3e44")
  | .Erlang => ("\uE7B1", "#A90533")
  | .Elixir => ("\uE62D", "#a074c4")
  | .Mix => ("\uE62D", "#cc3e44")
  | .Vim => ("\uE62B", "#019833")
  | .Ai => ("\uE7B4", "#cbcb41")
  | .Psd => ("\uE7B8", "#519aba")
  | .Psb => ("\uE7B8", "#519aba")
  | .Typescript => ("\uE628", "#519aba")
  | .Typescriptreact => ("\uE7BA", "#519aba")
  | .Julia => ("\uE624", "#a074c4")
  | .Puppet => ("\uF499", "#cbcb41")
  | .Vue => ("\uFD42", "#8dc149")
  | .Swift => ("\uE755", "#e37933")
  | .Gitconfig => ("\uE702", "#41535b")
  | .Bashrc => ("\uE615", "#4d5a5e")
  | .Favicon => ("\uE623", "#cbcb41")
  | .Docker => ("\uE7B0", "#519aba")
  | .Gruntfile => ("\uE611", "#e37933")
  | .Gulpfile => ("\uE610", "#cc3e44")
  | .Dropbox => ("\uE707", "#0061FE")
  | .License => ("\uE60A", "#cbcb41")
  | .Procfile => ("\uE607", "#a074c4")
  | .Jquery => ("\uE750", "#1B75BB")
  | .Angular => ("\uE753", "#E23237")
  | .Backbone => ("\uE752", "#0071B5")
  | .Requirejs => ("\uE770", "#F44A41")
  | .Materialize => ("\uE7B6", "#EE6E73")
  | .Mootools => ("\uE78F", "#ECECEC")
  | .Vagrant => ("\uF2B8", "#1563FF")
  | .Svg => ("\uFC1F", "#FFB13B")
  | .Font => ("\uF031", "#999999")
  | .Text => ("\uF783", "#999999")
  | .Archive => ("\uF53B", "#cc3e44")
  | .Unknown => ("\uE612", "#999999")


/-- Read-only mark glyph (column.rs `READ_ONLY_ICON`). -/
def readOnlyIcon : String := "✗"

/-- Selected mark glyph (column.rs `SELECTED_ICON`). -/
def selectedIcon : String := "✓"

/-- Filename alignment constant (tree.rs `const KSTOP: usize = 60`). -/
def KSTOP : Nat := 60

/-- Tree configuration (tree.rs `struct Config`). -/
structure Config where
  autoCd : Bool
  autoRecursiveLevel : Nat
  columns : List ColumnType
  ignoredFiles : String
  showIgnoredFiles : Bool
  profile : Bool
  rootMarker : String
  search : String
  sessionFile : String
  sort : String
  listed : Bool

/-- Default configuration (tree.rs `impl Default for Config`). -/
def defaultConfig : Config :=
  { autoCd := false
    autoRecursiveLevel := 0
    columns := [ColumnType.MARK, ColumnType.INDENT, ColumnType.GIT,
                ColumnType.ICON, ColumnType.FILENAME, ColumnType.SIZE,
                ColumnType.TIME]
    ignoredFiles := ""
    showIgnoredFiles := false
    profile := false
    rootMarker := "[in]: "
    search := ""
    sessionFile := ""
    sort := ""
    listed := false }

/-- State of one tree instance: the fields of tree.rs `struct Tree`
that the verified operations read or write (`config`,
`selected_items`, `file_items`, `expand_store`, `col_map`). -/
structure TreeState where
  config : Config
  selectedItems : Finset Nat
  fileItems : List FileItem
  expandStore : List (String × Bool)
  colMap : ColumnType → List Cell

/-- Lookup in the expand store (`HashMap::get`). -/
def storeLookup (l : List (String × Bool)) (k : String) : Option Bool :=
  match l with
  | [] => none
  | p :: rest => if p.1 = k then some p.2 else storeLookup rest k

/-- Insert into the expand store (`HashMap::insert`): replace the
binding of the key if present, otherwise append it. -/
def storeInsert (l : List (String × Bool)) (k : String) (v : Bool) :
    List (String × Bool) :=
  match l with
  | [] => [(k, v)]
  | p :: rest => if p.1 = k then (k, v) :: rest else p :: storeInsert rest k v

/-- Remove from the expand store (`HashMap::remove`). -/
def storeRemove (l : List (String × Bool)) (k : String) : List (String × Bool) :=
  match l with
  | [] => []
  | p :: rest => if p.1 = k then rest else p :: storeRemove rest k

/-- Is a path marked expanded (tree.rs `Tree::is_item_opened`). -/
def isItemOpened (st : TreeState) (path : String) : Bool :=
  match storeLookup st.expandStore path with
  | some v => v
  | none => false

/-- Is a position selected (tree.rs `Tree::is_item_selected`). -/
def isItemSelected (st : TreeState) (idx : Nat) : Bool :=
  decide (idx ∈ st.selectedItems)

/-- UTF-8 size in bytes of one character, as produced by a Rust
`String` (models `str::len` per character). -/
def charUtf8Size (c : Char) : Nat :=
  if c.toNat < 0x80 then 1
  else if c.toNat < 0x800 then 2
  else if c.toNat < 0x10000 then 3
  else 4

/-- Byte length of a string (Rust `String::len`). -/
def utf8Len (s : String) : Nat :=
  s.data.foldl (fun n c => n + charUtf8Size c) 0

/-- Display width of one character: abridged model of the
unicode-width crate tables used by `UnicodeWidthStr::width` (control
and combining characters are zero wide, East-Asian wide blocks are two
columns wide, everything else is one column wide). -/
def charWidth (c : Char) : Nat :=
  let n := c.toNat
  if n = 0 then 0
  else if n < 32 then 0
  else if 0x7f ≤ n ∧ n < 0xa0 then 0
  else if 0x300 ≤ n ∧ n ≤ 0x36f then 0
  else if 0x200b ≤ n ∧ n ≤ 0x200f then 0
  else if 0x1100 ≤ n ∧ n ≤ 0x115f then 2
  else if 0x2e80 ≤ n ∧ n ≤ 0xa4cf then 2
  else if 0xac00 ≤ n ∧ n ≤ 0xd7a3 then 2
  else if 0xf900 ≤ n ∧ n ≤ 0xfaff then 2
  else if 0xfe30 ≤ n ∧ n ≤ 0xfe4f then 2
  else if 0xff00 ≤ n ∧ n ≤ 0xff60 then 2
  else if 0xffe0 ≤ n ∧ n ≤ 0xffe6 then 2
  else if 0x20000 ≤ n ∧ n ≤ 0x3fffd then 2
  else 1

/-- Display width of a string (`UnicodeWidthStr::width`). -/
def strWidth (s : String) : Nat :=
  s.data.foldl (fun n c => n + charWidth c) 0

/-- Does the first character of a string equal `c` (structural model
of `str::starts_with` on a one-character pattern). -/
def headCharIs (c : Char) (s : String) : Bool :=
  match s.data with
  | [] => false
  | a :: _ => a = c

/-- Split a character list on a separator character, keeping empty
groups (the behaviour of both Rust `str::split` and
`String::splitOn` on a one-character separator). -/
def splitOnChar (sep : Char) : List Char → List (List Char)
  | [] => [[]]
  | c :: rest =>
    match splitOnChar sep rest with
    | [] => [[]]
    | g :: gs => if c = sep then [] :: g :: gs else (c :: g) :: gs

/-- Split a string on a separator character. -/
def splitStr (sep : Char) (s : String) : List String :=
  (splitOnChar sep s.data).map (fun l => String.mk l)

/-- Last path component (Rust `Path::file_name` on the absolute,
separator-normalised paths the engine builds). -/
def lastComponent (p : String) : String :=
  ((splitStr (Char.ofNat 47) p).getLast?).getD ""

/-- File extension (Rust `Path::extension`, used by
`FileItem::extension`): the part of the file name after its last dot,
none when there is no dot or when the only dot is the leading dot of a
hidden file. -/
def extensionOf (p : String) : Option String :=
  match splitStr (Char.ofNat 46) (lastComponent p) with
  | [] => none
  | [_] => none
  | first :: rest =>
    if first = "" ∧ rest.length = 1 then none
    else some ((rest.getLast?).getD "")

/-- Join a directory path and a child name (Rust `Path::join` for a
relative name, composed with `absolute_path` which is the identity on
the already-absolute, clean paths the scanner produces). -/
def pathJoinSeg (dir : String) (name : String) : String :=
  dir ++ "/" ++ name

/-- Rust `PathBuf::join` with an arbitrary user-supplied component: an
absolute right-hand side replaces the path entirely. -/
def pathJoin (base : String) (name : String) : String :=
  if headCharIs (Char.ofNat 47) name then name else base ++ "/" ++ name

/-- Model of `Vec::splice(s..e, repl)` for `s ≤ e ≤ l.length`. -/
def listSplice (l : List α) (s e : Nat) (repl : List α) : List α :=
  l.take s ++ repl ++ l.drop e

/-- Model of the slice `&l[s..e]` for `s ≤ e ≤ l.length`. -/
def listSlice (l : List α) (s e : Nat) : List α :=
  (l.drop s).take (e - s)

/-- Ascending run of naturals `[a, a+1, ..., a+c-1]`, used to model
`for i in a..a+c` loops. -/
def natRange : Nat → Nat → List Nat
  | _, 0 => []
  | a, c + 1 => a :: natRange (a + 1) c

/-- Index of the last occurrence of a column kind in the column list,
`-1` when absent: models the scanning loop of the INDENT arm of
`ColumnCell::new`, whose two index variables keep the last match. -/
def lastIdxOf (cols : List ColumnType) (c : ColumnType) : Int :=
  cols.enum.foldl (fun acc p => if p.2 = c then (p.1 : Int) else acc) (-1)

/-- Ancestor walk of the INDENT arm of `ColumnCell::new`: per ancestor
(innermost first) push a continuation marker and the margin spacer,
stopping after `maxLevel` steps or at the root. -/
def indentAncestors (spacer : String) : Option FileItem → Int → Int → List String
  | none, _, _ => []
  | some (FileItem.mk _ _ _ par la _), i, maxLevel =>
    if maxLevel ≤ i then []
    else (if la then "  " else "│ ") :: spacer ::
      indentAncestors spacer par (i + 1) maxLevel

/-- Text and highlight group of one cell (column.rs
`ColumnCell::new`); the caller fills in the extents, so they are zero
here exactly as in the source constructor. -/
def cellNew (st : TreeState) (fileitem : FileItem) (ty : ColumnType)
    (isRootCell : Bool) : Cell :=
  let zero : Cell :=
    { colStart := 0, colEnd := 0, byteStart := 0, byteEnd := 0,
      text := "", hlGroup := none }
  match ty with
  | ColumnType.MARK =>
    if fileitem.metadata.readonly then
      { zero with text := readOnlyIcon,
                  hlGroup := some GuiColor.BROWN.hlGroupName }
    else if isItemSelected st fileitem.id then
      { zero with text := selectedIcon,
                  hlGroup := some GuiColor.GREEN.hlGroupName }
    else
      { zero with text := " " }
  | ColumnType.INDENT =>
    let iconIdx := lastIdxOf st.config.columns ColumnType.ICON
    let indentIdx := lastIdxOf st.config.columns ColumnType.INDENT
    let margin : Int := iconIdx - indentIdx - 1
    let marginVal : Nat := if 0 ≤ margin then margin.toNat else 0
    let spacer : String := String.mk (List.replicate (marginVal * 2) ' ')
    let pushed : List String :=
      if 0 < fileitem.level then
        (if fileitem.last then "└ " else "│ ") :: spacer ::
          indentAncestors spacer fileitem.parent 0 (fileitem.level - 1)
      else []
    { zero with text := String.join pushed.reverse }
  | ColumnType.GIT => zero
  | ColumnType.ICON =>
    if fileitem.metadata.isDir then
      let dirOpened := isItemOpened st fileitem.path
      if !isRootCell then
        let icon :=
          if dirOpened then Icon.FolderOpened
          else if fileitem.metadata.isSymlink then Icon.FolderSymlink
          else Icon.FolderClosed
        { zero with text := icon.glyphAndColor.1 ++ " ",
                    hlGroup := some icon.hlGroupName }
      else
        { zero with text := " " }
    else
      let extensionIcon :=
        match extensionOf fileitem.path with
        | some e => iconOfStr e
        | none => Icon.Unknown
      { zero with text := extensionIcon.glyphAndColor.1 ++ " ",
                  hlGroup := some extensionIcon.hlGroupName }
  | ColumnType.FILENAME =>
    if isRootCell then
      { zero with text := st.config.rootMarker ++ fileitem.path,
                  hlGroup := some GuiColor.YELLOW.hlGroupName }
    else
      let base := lastComponent fileitem.path
      if fileitem.metadata.isDir then
        { zero with text := base ++ "/",
                    hlGroup := some GuiColor.BLUE.hlGroupName }
      else
        { zero with text := base,
                    hlGroup := some GuiColor.YELLOW.hlGroupName }
  | ColumnType.SIZE => zero
  | ColumnType.TIME => zero

/-- Inner per-row column loop of `Tree::make_cells` (tree.rs lines
1176-1197): thread the running display column and byte offset through
the configured columns, pad the FILENAME cell up to `KSTOP`, and put a
one-column separator after every column except INDENT. -/
def makeRowAux (st : TreeState) (fileitem : FileItem) (isRoot : Bool) :
    List ColumnType → Nat → Nat → List Cell
  | [], _, _ => []
  | col :: rest, start, byteStart =>
    let c0 := cellNew st fileitem col isRoot
    let byteEndN := byteStart + utf8Len c0.text
    let colEndN := start + strWidth c0.text
    let pad : Nat :=
      if col = ColumnType.FILENAME ∧ colEndN < KSTOP then KSTOP - colEndN
      else 0
    let cell : Cell :=
      { colStart := start, colEnd := colEndN + pad,
        byteStart := byteStart, byteEnd := byteEndN + pad,
        text := c0.text, hlGroup := c0.hlGroup }
    let sep : Nat := if col = ColumnType.INDENT then 0 else 1
    cell :: makeRowAux st fileitem isRoot rest (cell.colEnd + sep) (cell.byteEnd + sep)

/-- All cells of one row in column order. -/
def makeRow (st : TreeState) (fileitem : FileItem) (isRoot : Bool) : List Cell :=
  makeRowAux st fileitem isRoot st.config.columns 0 0

/-- Push each cell of one row onto the per-column accumulator
(`r[i].1.push(cell)` in `Tree::make_cells`). -/
def pushRow : List (ColumnType × List Cell) → List Cell →
    List (ColumnType × List Cell)
  | [], _ => []
  | p :: r, [] => p :: pushRow r []
  | (c, cs) :: r, cell :: row => (c, cs ++ [cell]) :: pushRow r row

/-- Batch cell layout (tree.rs `Tree::make_cells`): one accumulator
entry per configured column, then per item (the first being the root
row when `firstItemIsRoot`) push the cells of its row. -/
def Tree.makeCells (st : TreeState) (items : List FileItem)
    (firstItemIsRoot : Bool) : List (ColumnType × List Cell) :=
  let init := st.config.columns.map (fun col => (col, ([] : List Cell)))
  (items.foldl
    (fun acc fileitem =>
      let isRoot := firstItemIsRoot && acc.2
      (pushRow acc.1 (makeRow st fileitem isRoot), false))
    (init, true)).1

/-- Recompute the cells of the row range `[sl, el)` in place (tree.rs
`Tree::update_cells`). -/
def Tree.updateCells (st : TreeState) (sl el : Nat) : TreeState :=
  let cells := Tree.makeCells st (listSlice st.fileItems sl el) (sl = 0)
  let colMap2 := cells.foldl
    (fun m pc => fun c => if c = pc.1 then listSplice (m pc.1) sl el pc.2 else m c)
    st.colMap
  { st with colMap := colMap2 }

/-- Comparator of directory entries (tree.rs lines 1316-1324):
directories before files, ties broken by name comparison. -/
def cmpEntry (l r : String × FsMeta) : Ordering :=
  if l.2.isDir && !r.2.isDir then Ordering.lt
  else if !l.2.isDir && r.2.isDir then Ordering.gt
  else compare l.1 r.1

/-- Insert one element into an already sorted list, after every
element that does not compare greater than it (stable insertion). -/
def insertSorted (cmp : α → α → Ordering) (x : α) : List α → List α
  | [] => [x]
  | y :: ys =>
    if cmp x y = Ordering.gt then y :: insertSorted cmp x ys
    else x :: y :: ys

/-- Stable comparator sort, modelling `Vec::sort_by`. -/
def sortByStable (cmp : α → α → Ordering) : List α → List α
  | [] => []
  | x :: xs => insertSorted cmp x (sortByStable cmp xs)

/-- Filtered and sorted listing of a directory item, as built at the
top of `entry_info_recursively_sync`: drop hidden entries unless
`show_ignored_files`, then sort directories-first by name. -/
def scanEntries (cfg : Config) (fs : Fs) (item : FileItem) :
    List (String × FsMeta) :=
  sortByStable cmpEntry
    ((fs.readDir item.path).filter
      (fun e => cfg.showIgnoredFiles || !(headCharIs (Char.ofNat 46) e.1)))

/-- Entry loop of `entry_info_recursively_sync`: build each child item
(level set, parent linked, `last` on the final index, sequential id)
and recurse into it when the expand store marks its path expanded. The
recursive scan of one expanded child is passed in as the callback
`rec`; `entryInfoRec` ties the knot with itself at the next smaller
fuel. -/
def entryInfoLoop (store : List (String × Bool))
    (rec : FileItem → Nat → List FileItem × Nat)
    (item : FileItem) (level : Int) (count : Nat) :
    List (String × FsMeta) → Nat → Nat → List FileItem × Nat
  | [], _, sid => ([], sid)
  | (name, meta) :: rest, i, sid =>
    let fi : FileItem :=
      FileItem.mk (pathJoinSeg item.path name) meta level (some item)
        (i == count - 1) sid
    let sid1 := sid + 1
    if storeLookup store fi.path = some true then
      let sub := rec fi sid1
      let restOut := entryInfoLoop store rec item level count rest (i + 1) sub.2
      (fi :: (sub.1 ++ restOut.1), restOut.2)
    else
      let restOut := entryInfoLoop store rec item level count rest (i + 1) sid1
      (fi :: restOut.1, restOut.2)

/-- Recursive scan (tree.rs `Tree::entry_info_recursively_sync`):
returns the flattened subtree items of `item` (excluding `item`
itself) together with the next free id. The fuel bounds the recursion
depth; every theorem below holds for every fuel value. -/
def entryInfoRec (cfg : Config) (store : List (String × Bool)) (fs : Fs) :
    Nat → FileItem → Nat → List FileItem × Nat
  | 0, _, startId => ([], startId)
  | fuel + 1, item, startId =>
    let entries := scanEntries cfg fs item
    entryInfoLoop store (entryInfoRec cfg store fs fuel) item
      (item.level + 1) entries.length entries 0 startId

/-- One step of the id-renumbering loops of
`remove_items_and_cells`/`insert_items_and_cells`: at index `i`, remap
a selection entry carrying the old id to `i`, then write `i` into the
id field. -/
def remapStep (p : List FileItem × Finset Nat) (i : Nat) :
    List FileItem × Finset Nat :=
  match p.1.get? i with
  | none => p
  | some fi =>
    let sel := if fi.id ∈ p.2 then insert i (p.2.erase fi.id) else p.2
    (p.1.set i (fi.setId i), sel)

/-- The renumbering loop `for i in start..len` over items and the
selection set. -/
def renumberFrom (start : Nat) (items : List FileItem) (sel : Finset Nat) :
    List FileItem × Finset Nat :=
  (natRange start (items.length - start)).foldl remapStep (items, sel)

/-- Remove the item range `[start, e)` and its cells (tree.rs
`Tree::remove_items_and_cells`): splice the range out of every column
and out of the item list, drop the removed indices from the selection
set, then renumber the ids (remapping surviving selections) from
`start` on. -/
def Tree.removeItemsAndCells (st : TreeState) (start e : Nat) : TreeState :=
  let colMap2 := fun c => listSplice (st.colMap c) start e []
  let fileItems1 := listSplice st.fileItems start e []
  let sel1 := (natRange start (e - start)).foldl (fun s i => s.erase i)
    st.selectedItems
  let p := renumberFrom start fileItems1 sel1
  { st with colMap := colMap2, fileItems := p.1, selectedItems := p.2 }

/-- Insert items at `pos` and build their cells (tree.rs
`Tree::insert_items_and_cells`): guard `pos` against the list length,
splice the items in, renumber the ids after the insertion (remapping
selections), then make the cells of the inserted items (against the
already-updated state, root context when `pos == 0`) and splice them
into every column. -/
def Tree.insertItemsAndCells (st : TreeState) (pos : Nat)
    (items : List FileItem) : Except String TreeState :=
  if pos > st.fileItems.length then
    Except.error "pos larger than the fileitem size"
  else
    let isFirstItemRoot := pos = 0
    let sizeToInsert := items.length
    let fileItems1 := listSplice st.fileItems pos pos items
    let p := renumberFrom (pos + sizeToInsert) fileItems1 st.selectedItems
    let st1 := { st with fileItems := p.1, selectedItems := p.2 }
    let cells := Tree.makeCells st1 items isFirstItemRoot
    let colMap2 := cells.foldl
      (fun m pc => fun c => if c = pc.1 then listSplice (m pc.1) pos pos pc.2 else m c)
      st1.colMap
    Except.ok { st1 with colMap := colMap2 }

/-- Expand a closed directory row (tree.rs `Tree::open_tree`): the
root row is never toggled; an unknown index is an error committing no
mutation; otherwise scan the subtree, mark the path expanded, refresh
the target row cell, and insert the scanned items right after the
target. -/
def Tree.openTree (fs : Fs) (fuel : Nat) (st : TreeState) (idx : Nat) :
    Except String TreeState :=
  if idx = 0 then Except.ok st
  else
    match st.fileItems.get? idx with
    | none => Except.error ("Index out of bound: " ++ toString idx)
    | some cur =>
      let pathStr := cur.path
      let isOpened :=
        match storeLookup st.expandStore pathStr with
        | some v => v
        | none => false
      if cur.metadata.isDir && !isOpened then
        let childFileitem := (entryInfoRec st.config st.expandStore fs fuel cur (idx + 1)).1
        let st1 := { st with expandStore := storeInsert st.expandStore pathStr true }
        let st2 := Tree.updateCells st1 idx (idx + 1)
        Tree.insertItemsAndCells st2 (idx + 1) childFileitem
      else Except.ok st

/-- Collapse an expanded directory row (tree.rs `Tree::close_tree`):
the root row is never toggled; an unknown index is an error committing
no mutation; otherwise unmark the path, determine the contiguous
descendant run as the following rows of strictly greater level, remove
it, and refresh the target row cell. -/
def Tree.closeTree (st : TreeState) (idx : Nat) : Except String TreeState :=
  if idx = 0 then Except.ok st
  else
    match st.fileItems.get? idx with
    | none => Except.error ("Index out of bound: " ++ toString idx)
    | some target =>
      let pathStr := target.path
      let isOpened :=
        match storeLookup st.expandStore pathStr with
        | some v => v
        | none => false
      if target.metadata.isDir && isOpened then
        let st1 := { st with expandStore := storeRemove st.expandStore pathStr }
        let start := idx + 1
        let baseLevel := target.level
        let e := start +
          ((st1.fileItems.drop start).takeWhile
            (fun fi => decide (baseLevel < fi.level))).length
        let st2 := Tree.removeItemsAndCells st1 start e
        Except.ok (Tree.updateCells st2 idx (idx + 1))
      else Except.ok st

/-- Re-root the tree (tree.rs `Tree::change_root`): a non-directory
path is a silent no-op; otherwise mark the root path expanded, clear
the columns and the item list, build the root item (level stays at the
`FileItem::new` initial value), scan recursively, and insert the whole
list at position zero. The cursor-history restore and the git
repository reload are external effects outside the modelled state. -/
def Tree.changeRoot (fs : Fs) (fuel : Nat) (st : TreeState)
    (pathStr : String) : Except String TreeState :=
  match fs.stat pathStr with
  | none => Except.ok st
  | some filemeta =>
    if !filemeta.isDir then Except.ok st
    else
      let rootPathStr := pathStr
      let st1 := { st with expandStore := storeInsert st.expandStore rootPathStr true,
                           colMap := fun _ => ([] : List Cell),
                           fileItems := ([] : List FileItem) }
      let rootItem := FileItem.new rootPathStr filemeta 0
      let fileitems := rootItem ::
        (entryInfoRec st1.config st1.expandStore fs fuel rootItem 1).1
      Tree.insertItemsAndCells st1 0 fileitems

/-- Redraw the subtree under a row (tree.rs `Tree::redraw_subtree`):
resolve the parent row (an unknown index is an error), compute its
descendant run; with `force` discard and rescan the run, otherwise
recompute only the cell contents of the run. -/
def Tree.redrawSubtree (fs : Fs) (fuel : Nat) (st : TreeState)
    (parentIdx : Nat) (force : Bool) : Except String TreeState :=
  match st.fileItems.get? parentIdx with
  | none => Except.error "Invalid index"
  | some cur =>
    let idx := cur.id
    let baseLevel := cur.level
    let start := cur.id + 1
    let e := start +
      ((st.fileItems.drop start).takeWhile
        (fun fi => decide (baseLevel < fi.level))).length
    if force then
      let st1 := Tree.removeItemsAndCells st start e
      let childItems := (entryInfoRec st1.config st1.expandStore fs fuel cur (idx + 1)).1
      Tree.insertItemsAndCells st1 start childItems
    else
      Except.ok (Tree.updateCells st start e)

/-- Outcome of the rename action control flow (tree.rs
`Tree::action_rename`). `panics` models the unchecked
`self.file_items[idx]` index; `noop` models the early `Ok(())` returns
for an empty input or an unchanged path; `conflict` models the
`Err("File exists!")` return taken before any filesystem or tree
mutation; `renamed` records the `std::fs::rename(src, dst)` performed
before the forced full-tree redraw. -/
inductive RenameResult where
  | panics
  | noop
  | conflict
  | renamed (src dst : String)
deriving DecidableEq, Repr

/-- Decision logic of `Tree::action_rename` for a caller cursor (one
based) and the filename typed by the user: resolve the target by
direct indexing, join the new name onto the target path, and refuse an
already existing destination before touching anything. -/
def Tree.renameDecision (st : TreeState) (fs : Fs) (cursor : Nat)
    (newFilename : String) : RenameResult :=
  match st.fileItems.get? (cursor - 1) with
  | none => RenameResult.panics
  | some cur =>
    if newFilename = "" then RenameResult.noop
    else
      let newPath := pathJoin cur.path newFilename
      if newPath = cur.path then RenameResult.noop
      else if (fs.stat newPath).isSome then RenameResult.conflict
      else RenameResult.renamed cur.path newPath

/-- Column-name conversion (column.rs `impl From<&str> for ColumnType`):
the seven known names map to their kind, anything else hits the
`panic!("Error! unknown column type")` arm, modelled as `none`. -/
def columnTypeOfString (s : String) : Option ColumnType :=
  if s = "mark" then some ColumnType.MARK
  else if s = "indent" then some ColumnType.INDENT
  else if s = "git" then some ColumnType.GIT
  else if s = "icon" then some ColumnType.ICON
  else if s = "filename" then some ColumnType.FILENAME
  else if s = "size" then some ColumnType.SIZE
  else if s = "time" then some ColumnType.TIME
  else none

/-- The push loop of the `"columns"` arm of `Config::update`: convert
each name in order; a panic (unknown name) aborts the whole update,
modelled as `none`. -/
def colsFromStrings : List String → Option (List ColumnType)
  | [] => some []
  | s :: rest =>
    match columnTypeOfString s, colsFromStrings rest with
    | some c, some cs => some (c :: cs)
    | _, _ => none

/-- Parsing of a `columns` configuration value (tree.rs
`Config::update`, `"columns"` arm): split on `:` and convert each
piece. -/
def configColumnsUpdate (v : String) : Option (List ColumnType) :=
  colsFromStrings (splitStr (Char.ofNat 58) v)

/-- The structural operations quantified over by the invariant claims:
`open_tree`, `close_tree`, `change_root` (rebuild), and the
cells-only redraw (`redraw_subtree` with `force = false`). -/
inductive TreeOp where
  | openT (idx : Nat)
  | closeT (idx : Nat)
  | rebuild (path : String)
  | updateC (idx : Nat)

/-- Run one operation; an error return leaves the state unchanged
(each of these operations raises its error before mutating). -/
def applyOp (fs : Fs) (fuel : Nat) (st : TreeState) : TreeOp → TreeState
  | TreeOp.openT idx =>
    match Tree.openTree fs fuel st idx with
    | Except.ok s => s
    | Except.error _ => st
  | TreeOp.closeT idx =>
    match Tree.closeTree st idx with
    | Except.ok s => s
    | Except.error _ => st
  | TreeOp.rebuild path =>
    match Tree.changeRoot fs fuel st path with
    | Except.ok s => s
    | Except.error _ => st
  | TreeOp.updateC idx =>
    match Tree.redrawSubtree fs fuel st idx false with
    | Except.ok s => s
    | Except.error _ => st

/-- Run a sequence of operations. -/
def applyOps (fs : Fs) (fuel : Nat) (ops : List TreeOp) (st : TreeState) :
    TreeState :=
  ops.foldl (applyOp fs fuel) st

/-- Freshly created tree state (tree.rs `Tree::new`: every collection
starts empty). -/
def initialTree (cfg : Config) : TreeState :=
  { config := cfg
    selectedItems := ∅
    fileItems := []
    expandStore := []
    colMap := fun _ => [] }

/-- Position invariant: every stored id equals its index in the
flattened list. -/
def idsOk (st : TreeState) : Prop :=
  ∀ i fi, st.fileItems.get? i = some fi → fi.id = i

/-- Cell-count invariant: every configured column has exactly one cell
per node. -/
def cellsOk (st : TreeState) : Prop :=
  ∀ c ∈ st.config.columns, (st.colMap c).length = st.fileItems.length

/-- Executable check of `idsOk` starting at offset `a`. -/
def idsFrom : List FileItem → Nat → Bool
  | [], _ => true
  | fi :: rest, a => (fi.id == a) && idsFrom rest (a + 1)

/-- The target row exists and is a closed directory: the guard under
which `open_tree` actually expands (tree.rs lines 943-964). -/
def isClosedDirAt (st : TreeState) (idx : Nat) : Bool :=
  match st.fileItems.get? idx with
  | some cur => cur.metadata.isDir && !(isItemOpened st cur.path)
  | none => false

/-- The row after the target, if any, does not belong under the
target: its level is at most the target level (the flattened-tree
shape at a closed directory row). -/
def nextLevelLeAt (st : TreeState) (idx : Nat) : Bool :=
  match st.fileItems.get? idx, st.fileItems.get? (idx + 1) with
  | some cur, some nxt => decide (nxt.level ≤ cur.level)
  | some _, none => true
  | none, _ => false

/-- The selection remap the specification describes for inserting
`k` nodes at position `p`: indices below `p` stay, indices at or above
`p` shift up by `k`. -/
def specInsertShift (sel : Finset Nat) (p k : Nat) : Finset Nat :=
  (sel.filter (· < p)) ∪ (sel.filter (p ≤ ·)).image (· + k)

/-- Directory metadata used by the concrete examples. -/
def metaDirW : FsMeta := { isDir := true, readonly := false, isSymlink := false }

/-- Plain-file metadata used by the concrete examples. -/
def metaFileW : FsMeta := { isDir := false, readonly := false, isSymlink := false }

/-- Concrete filesystem for the examples: `/r` holds a directory `d`
(containing `x.txt`) and a file `f.txt`. -/
def fsW : Fs :=
  { readDir := fun p =>
      if p = "/r" then [("f.txt", metaFileW), ("d", metaDirW)]
      else if p = "/r/d" then [("x.txt", metaFileW)]
      else []
    stat := fun p =>
      if p = "/r" then some metaDirW
      else if p = "/r/d" then some metaDirW
      else if p = "/r/f.txt" then some metaFileW
      else if p = "/r/d/x.txt" then some metaFileW
      else none }

/-- Two-column configuration (`mark:filename`). -/
def cfgW : Config :=
  { defaultConfig with columns := [ColumnType.MARK, ColumnType.FILENAME] }

/-- State obtained by rebuilding at `/r`. -/
def stW : TreeState := applyOps fsW 9 [TreeOp.rebuild "/r"] (initialTree cfgW)

/-- Duplicated-column configuration (`mark:mark`), accepted by the
configuration parser. -/
def cfgDup : Config :=
  { defaultConfig with columns := [ColumnType.MARK, ColumnType.MARK] }

/-- State obtained by rebuilding at `/r` under the duplicated-column
configuration. -/
def stDup : TreeState :=
  applyOps fsW 9 [TreeOp.rebuild "/r"] (initialTree cfgDup)

/-- An all-zero cell placeholder. -/
def dummyCell : Cell :=
  { colStart := 0, colEnd := 0, byteStart := 0, byteEnd := 0,
    text := "", hlGroup := none }

/-- Concrete state for the selection-shift example: three rows with
ids 0, 1, 2 and rows 1 and 2 selected. -/
def stSel : TreeState :=
  { config := cfgW
    selectedItems := {1, 2}
    fileItems :=
      [FileItem.mk "/r" metaDirW (-1) none false 0,
       FileItem.mk "/r/a" metaFileW 0 none false 1,
       FileItem.mk "/r/b" metaFileW 0 none false 2]
    expandStore := [("/r", true)]
    colMap := fun _ => [dummyCell, dummyCell, dummyCell] }

/-- A single item to insert at position 1 of `stSel` (its id is the
insertion position, as `entry_info_recursively_sync` numbers it). -/
def newItemSel : FileItem := FileItem.mk "/r/c" metaFileW 0 none false 1

/-- Unrolled list of per-row cell lists produced by the `make_cells`
fold: the first row is the root row when both flags hold, every later
row is a plain row. -/
def makeRowsList (st : TreeState) (b : Bool) : List FileItem → Bool → List (List Cell)
  | [], _ => []
  | x :: xs, flag => makeRow st x (b && flag) :: makeRowsList st b xs false

theorem listAppendGet (a b : List α) (i : Nat) :
    (a ++ b).get? i = if i < a.length then a.get? i else b.get? (i - a.length) := by
  induction a generalizing i with
  | nil => simp
  | cons x xs ih =>
    cases i with
    | zero => simp
    | succ n => simpa [Nat.succ_lt_succ_iff] using ih n

theorem listTakeGet (l : List α) (s i : Nat) :
    (l.take s).get? i = if i < s then l.get? i else none := by
  induction l generalizing s i with
  | nil => simp
  | cons x xs ih =>
    cases s with
    | zero => simp
    | succ s =>
      cases i with
      | zero => simp
      | succ n => simpa [Nat.succ_lt_succ_iff] using ih s n

theorem listDropGet (l : List α) (s i : Nat) :
    (l.drop s).get? i = l.get? (s + i) := by
  induction l generalizing s i with
  | nil => simp
  | cons x xs ih =>
    cases s with
    | zero => simp
    | succ s =>
      have : s + 1 + i = (s + i) + 1 := by omega
      simp [this, ih s i]

theorem listSetGet (l : List α) (i : Nat) (a : α) (j : Nat) :
    (l.set i a).get? j = if i = j ∧ j < l.length then some a else l.get? j := by
  induction l generalizing i j with
  | nil => simp
  | cons x xs ih =>
    cases i with
    | zero =>
      cases j with
      | zero => simp
      | succ n => simp
    | succ m =>
      cases j with
      | zero => simp
      | succ n => simpa [Nat.succ_lt_succ_iff] using ih m n

theorem listSpliceGet (l : List α) (s e : Nat) (r : List α)
    (hs : s ≤ l.length) (i : Nat) :
    (listSplice l s e r).get? i =
      if i < s then l.get? i
      else if i < s + r.length then r.get? (i - s)
      else l.get? (e + (i - s - r.length)) := by
  have htl : (l.take s).length = s := by
    simp [List.length_take]; omega
  have hlen : (l.take s ++ r).length = s + r.length := by
    simp [htl]
  simp only [listSplice]
  rw [listAppendGet, hlen]
  by_cases h1 : i < s
  · have h1b : i < s + r.length := by omega
    simp only [h1b, if_true]
    rw [listAppendGet, htl]
    simp [h1, listTakeGet]
  · by_cases h2 : i < s + r.length
    · simp only [h2, if_true, h1, if_false]
      rw [listAppendGet, htl]
      simp [h1, listTakeGet]
    · simp only [h2, if_false, h1, if_false]
      rw [listDropGet]
      have : e + (i - (s + r.length)) = e + (i - s - r.length) := by omega
      rw [this]

theorem listSpliceLength (l : List α) (s e : Nat) (r : List α)
    (hs : s ≤ l.length) :
    (listSplice l s e r).length = s + r.length + (l.length - e) := by
  simp [listSplice, List.length_take, List.length_drop]
  omega

theorem natRangeAppend (a m n : Nat) :
    natRange a (m + n) = natRange a m ++ natRange (a + m) n := by
  induction m generalizing a with
  | zero => simp [natRange]
  | succ m ih =>
    have h1 : m + 1 + n = (m + n) + 1 := by omega
    rw [h1]
    show a :: natRange (a + 1) (m + n) = a :: natRange (a + 1) m ++ natRange (a + (m + 1)) n
    rw [ih (a + 1)]
    have h2 : a + (m + 1) = (a + 1) + m := by omega
    rw [h2, List.cons_append]

theorem natRangeMem (a c i : Nat) : i ∈ natRange a c ↔ a ≤ i ∧ i < a + c := by
  induction c generalizing a with
  | zero =>
    simp only [natRange, List.not_mem_nil, false_iff]
    omega
  | succ c ih =>
    simp only [natRange, List.mem_cons, ih (a + 1)]
    omega

theorem setIdId (fi : FileItem) (i : Nat) : (fi.setId i).id = i := by
  cases fi; rfl

theorem setIdLevel (fi : FileItem) (i : Nat) : (fi.setId i).level = fi.level := by
  cases fi; rfl

theorem setIdPath (fi : FileItem) (i : Nat) : (fi.setId i).path = fi.path := by
  cases fi; rfl

theorem setIdMetadata (fi : FileItem) (i : Nat) :
    (fi.setId i).metadata = fi.metadata := by
  cases fi; rfl

theorem setIdSetId (fi : FileItem) (a b : Nat) :
    (fi.setId a).setId b = fi.setId b := by
  cases fi; rfl

theorem setIdSelf (fi : FileItem) : fi.setId fi.id = fi := by
  cases fi; rfl

theorem remapStepFst (p : List FileItem × Finset Nat) (i : Nat) :
    (remapStep p i).1 =
      match p.1.get? i with
      | none => p.1
      | some fi => p.1.set i (fi.setId i) := by
  simp only [remapStep]
  cases p.1.get? i <;> simp

theorem renumberFoldGet (c : Nat) :
    ∀ (a : Nat) (items : List FileItem) (sel : Finset Nat) (i : Nat),
    ((natRange a c).foldl remapStep (items, sel)).1.get? i =
      if a ≤ i ∧ i < a + c then (items.get? i).map (fun fi => fi.setId i)
      else items.get? i := by
  induction c with
  | zero =>
    intro a items sel i
    have hc : ¬ (a ≤ i ∧ i < a + 0) := by omega
    rw [if_neg hc]
    simp [natRange]
  | succ c ih =>
    intro a items sel i
    show ((natRange (a + 1) c).foldl remapStep (remapStep (items, sel) a)).1.get? i = _
    rcases hget : items.get? a with _ | fi
    · have hstep : remapStep (items, sel) a = (items, sel) := by
        simp only [remapStep, hget]
      rw [hstep, ih (a + 1) items sel i]
      by_cases h1 : a + 1 ≤ i ∧ i < a + 1 + c
      · rw [if_pos h1, if_pos (by omega : a ≤ i ∧ i < a + (c + 1))]
      · rw [if_neg h1]
        by_cases h2 : a ≤ i ∧ i < a + (c + 1)
        · have hia : i = a := by omega
          rw [if_pos h2, hia, hget]
          rfl
        · rw [if_neg h2]
    · have hstep : remapStep (items, sel) a =
          (items.set a (fi.setId a),
           if fi.id ∈ sel then insert a (sel.erase fi.id) else sel) := by
        simp only [remapStep, hget]
      have hlen : a < items.length := by
        by_contra hcon
        rw [List.get?_eq_none.mpr (by omega)] at hget
        exact Option.noConfusion hget
      rw [hstep, ih (a + 1) (items.set a (fi.setId a)) _ i]
      by_cases h1 : a + 1 ≤ i ∧ i < a + 1 + c
      · rw [if_pos h1, if_pos (by omega : a ≤ i ∧ i < a + (c + 1))]
        have hset : (items.set a (fi.setId a)).get? i = items.get? i := by
          rw [listSetGet]
          exact if_neg (by omega)
        rw [hset]
      · rw [if_neg h1]
        by_cases h2 : a ≤ i ∧ i < a + (c + 1)
        · have hia : i = a := by omega
          subst hia
          rw [if_pos h2]
          rw [listSetGet, if_pos (And.intro rfl hlen), hget]
          rfl
        · rw [if_neg h2, listSetGet]
          exact if_neg (by omega)

theorem renumberFoldLength (c : Nat) :
    ∀ (a : Nat) (items : List FileItem) (sel : Finset Nat),
    ((natRange a c).foldl remapStep (items, sel)).1.length = items.length := by
  induction c with
  | zero => intro a items sel; simp [natRange]
  | succ c ih =>
    intro a items sel
    show ((natRange (a + 1) c).foldl remapStep (remapStep (items, sel) a)).1.length = _
    rcases hget : items.get? a with _ | fi
    · have hstep : remapStep (items, sel) a = (items, sel) := by
        simp only [remapStep, hget]
      rw [hstep, ih]
    · have hstep : (remapStep (items, sel) a).1 = items.set a (fi.setId a) := by
        simp only [remapStep, hget]
      rcases hp : remapStep (items, sel) a with ⟨l2, s2⟩
      rw [hp] at hstep
      simp only at hstep
      rw [ih (a + 1) l2 s2, hstep, List.length_set]

theorem renumberFromGet (start : Nat) (items : List FileItem)
    (sel : Finset Nat) (i : Nat) :
    (renumberFrom start items sel).1.get? i =
      if start ≤ i ∧ i < items.length
      then (items.get? i).map (fun fi => fi.setId i)
      else items.get? i := by
  simp only [renumberFrom]
  rw [renumberFoldGet]
  by_cases h : start ≤ i ∧ i < items.length
  · have : start ≤ i ∧ i < start + (items.length - start) := by omega
    simp [h, this]
  · have h2 : ¬ (start ≤ i ∧ i < start + (items.length - start)) := by omega
    simp only [h2, if_false, h, if_false]

theorem renumberFromLength (start : Nat) (items : List FileItem)
    (sel : Finset Nat) :
    (renumberFrom start items sel).1.length = items.length := by
  simp only [renumberFrom]
  rw [renumberFoldLength]

theorem storeLookupInsert (l : List (String × Bool)) (k : String) (v : Bool)
    (q : String) :
    storeLookup (storeInsert l k v) q = if k = q then some v else storeLookup l q := by
  induction l with
  | nil =>
    by_cases h : k = q <;> simp [storeInsert, storeLookup, h]
  | cons p rest ih =>
    by_cases hp : p.1 = k
    · simp only [storeInsert, hp, if_true]
      by_cases hq : k = q
      · simp [storeLookup, hq]
      · have : ¬ p.1 = q := by rw [hp]; exact hq
        simp [storeLookup, hq, this, hp]
    · simp only [storeInsert, hp, if_false]
      by_cases hpq : p.1 = q
      · have hkq : ¬ k = q := by
          intro h
          exact hp (by rw [hpq, h])
        simp [storeLookup, hpq, hkq]
      · simp [storeLookup, hpq, ih]

theorem takeWhileAppend (p : α → Bool) (l1 l2 : List α)
    (h : ∀ x ∈ l1, p x = true) :
    (l1 ++ l2).takeWhile p = l1 ++ l2.takeWhile p := by
  induction l1 with
  | nil => simp
  | cons x xs ih =>
    have hx : p x = true := h x (by simp)
    simp only [List.cons_append, List.takeWhile_cons, hx, if_true]
    rw [ih (fun y hy => h y (by simp [hy]))]

theorem takeWhileNilOfHead (p : α → Bool) (l : List α)
    (h : ∀ x, l.get? 0 = some x → p x = false) :
    l.takeWhile p = [] := by
  cases l with
  | nil => simp
  | cons x xs =>
    have hx : p x = false := h x rfl
    simp [List.takeWhile_cons, hx]

@[simp] theorem fileItemPathMk (p : String) (m : FsMeta) (l : Int)
    (par : Option FileItem) (la : Bool) (i : Nat) :
    (FileItem.mk p m l par la i).path = p := rfl

@[simp] theorem fileItemMetadataMk (p : String) (m : FsMeta) (l : Int)
    (par : Option FileItem) (la : Bool) (i : Nat) :
    (FileItem.mk p m l par la i).metadata = m := rfl

@[simp] theorem fileItemLevelMk (p : String) (m : FsMeta) (l : Int)
    (par : Option FileItem) (la : Bool) (i : Nat) :
    (FileItem.mk p m l par la i).level = l := rfl

@[simp] theorem fileItemIdMk (p : String) (m : FsMeta) (l : Int)
    (par : Option FileItem) (la : Bool) (i : Nat) :
    (FileItem.mk p m l par la i).id = i := rfl

theorem natRangeGet (c : Nat) : ∀ (a j : Nat),
    (natRange a c).get? j = if j < c then some (a + j) else none := by
  induction c with
  | zero => intro a j; simp [natRange]
  | succ c ih =>
    intro a j
    cases j with
    | zero => simp [natRange]
    | succ j =>
      simp only [natRange, List.get?_cons_succ, ih (a + 1) j,
        Nat.succ_lt_succ_iff]
      by_cases h : j < c
      · have : a + 1 + j = a + (j + 1) := by omega
        simp [h, this]
      · simp [h]

theorem idsOfMapRange (l : List FileItem) (s : Nat)
    (h : l.map FileItem.id = natRange s l.length) :
    ∀ j fi, l.get? j = some fi → fi.id = s + j := by
  intro j fi hj
  have h1 : (l.map FileItem.id).get? j = some fi.id := by
    rw [List.get?_map, hj]
    rfl
  rw [h, natRangeGet] at h1
  by_cases hc : j < l.length
  · rw [if_pos hc] at h1
    exact (Option.some.inj h1).symm
  · rw [if_neg hc] at h1
    exact Option.noConfusion h1

theorem idsConsAppend (s : Nat) (fi : FileItem) (l1 l2 : List FileItem)
    (hfi : fi.id = s)
    (h1 : l1.map FileItem.id = natRange (s + 1) l1.length)
    (h2 : l2.map FileItem.id = natRange (s + 1 + l1.length) l2.length) :
    (fi :: (l1 ++ l2)).map FileItem.id = natRange s (fi :: (l1 ++ l2)).length := by
  simp only [List.map_cons, List.map_append, List.length_cons, List.length_append]
  rw [h1, h2, hfi]
  show s :: (natRange (s + 1) l1.length ++ natRange (s + 1 + l1.length) l2.length) =
    natRange s (l1.length + l2.length + 1)
  rw [← natRangeAppend (s + 1) l1.length l2.length]
  rfl

theorem entryInfoLoopIds (store : List (String × Bool))
    (rec : FileItem → Nat → List FileItem × Nat)
    (H : ∀ (item : FileItem) (sid : Nat),
      ((rec item sid).1.map FileItem.id =
        natRange sid (rec item sid).1.length) ∧
      (rec item sid).2 = sid + (rec item sid).1.length) :
    ∀ (entries : List (String × FsMeta)) (item : FileItem) (level : Int)
      (count i sid : Nat),
      ((entryInfoLoop store rec item level count entries i sid).1.map FileItem.id =
        natRange sid (entryInfoLoop store rec item level count entries i sid).1.length) ∧
      (entryInfoLoop store rec item level count entries i sid).2 =
        sid + (entryInfoLoop store rec item level count entries i sid).1.length := by
  intro entries
  induction entries with
  | nil =>
    intro item level count i sid
    simp [entryInfoLoop, natRange]
  | cons e rest ih =>
    rcases e with ⟨name, meta⟩
    intro item level count i sid
    simp only [entryInfoLoop, fileItemPathMk]
    by_cases hexp : storeLookup store (pathJoinSeg item.path name) = some true
    · rw [if_pos hexp]
      obtain ⟨hs1, hs2⟩ := H
        (FileItem.mk (pathJoinSeg item.path name) meta level (some item)
          (i == count - 1) sid) (sid + 1)
      generalize hsub : rec
        (FileItem.mk (pathJoinSeg item.path name) meta level (some item)
          (i == count - 1) sid) (sid + 1) = sub at hs1 hs2 ⊢
      obtain ⟨hr1, hr2⟩ := ih item level count (i + 1) sub.2
      generalize hrest : entryInfoLoop store rec item level count rest
        (i + 1) sub.2 = restOut at hr1 hr2 ⊢
      constructor
      · refine idsConsAppend sid _ sub.1 restOut.1 rfl hs1 ?_
        rw [hr1, hs2]
      · simp only [List.length_cons, List.length_append]
        omega
    · rw [if_neg hexp]
      obtain ⟨hr1, hr2⟩ := ih item level count (i + 1) (sid + 1)
      generalize hrest : entryInfoLoop store rec item level count rest
        (i + 1) (sid + 1) = restOut at hr1 hr2 ⊢
      constructor
      · simp only [List.map_cons, List.length_cons]
        rw [hr1, fileItemIdMk]
        rfl
      · simp only [List.length_cons]
        omega

theorem entryInfoRecIds (cfg : Config) (store : List (String × Bool))
    (fs : Fs) : ∀ (fuel : Nat) (item : FileItem) (sid : Nat),
    ((entryInfoRec cfg store fs fuel item sid).1.map FileItem.id =
      natRange sid (entryInfoRec cfg store fs fuel item sid).1.length) ∧
    (entryInfoRec cfg store fs fuel item sid).2 =
      sid + (entryInfoRec cfg store fs fuel item sid).1.length := by
  intro fuel
  induction fuel with
  | zero =>
    intro item sid
    simp [entryInfoRec, natRange]
  | succ f ihf =>
    intro item sid
    simp only [entryInfoRec]
    exact entryInfoLoopIds store (entryInfoRec cfg store fs f) ihf _ _ _ _ _ _

theorem entryInfoLoopLevels (store : List (String × Bool))
    (rec : FileItem → Nat → List FileItem × Nat)
    (H : ∀ (item : FileItem) (sid : Nat) (fi : FileItem),
      fi ∈ (rec item sid).1 → item.level < fi.level) :
    ∀ (entries : List (String × FsMeta)) (item : FileItem)
      (count i sid : Nat) (fi : FileItem),
      fi ∈ (entryInfoLoop store rec item (item.level + 1) count entries i sid).1 →
      item.level < fi.level := by
  intro entries
  induction entries with
  | nil =>
    intro item count i sid fi hmem
    simp [entryInfoLoop] at hmem
  | cons e rest ih =>
    rcases e with ⟨name, meta⟩
    intro item count i sid fi hmem
    simp only [entryInfoLoop, fileItemPathMk] at hmem
    by_cases hexp : storeLookup store (pathJoinSeg item.path name) = some true
    · rw [if_pos hexp] at hmem
      simp only [List.mem_cons, List.mem_append] at hmem
      rcases hmem with hfi | hsub | hrest
      · rw [hfi]
        simp only [fileItemLevelMk]
        omega
      · have := H (FileItem.mk (pathJoinSeg item.path name) meta
          (item.level + 1) (some item) (i == count - 1) sid) (sid + 1) fi hsub
        simp only [fileItemLevelMk] at this
        omega
      · exact ih item count (i + 1) _ fi hrest
    · rw [if_neg hexp] at hmem
      simp only [List.mem_cons] at hmem
      rcases hmem with hfi | hrest
      · rw [hfi]
        simp only [fileItemLevelMk]
        omega
      · exact ih item count (i + 1) _ fi hrest

theorem entryInfoRecLevels (cfg : Config) (store : List (String × Bool))
    (fs : Fs) : ∀ (fuel : Nat) (item : FileItem) (sid : Nat) (fi : FileItem),
    fi ∈ (entryInfoRec cfg store fs fuel item sid).1 → item.level < fi.level := by
  intro fuel
  induction fuel with
  | zero =>
    intro item sid fi hmem
    simp [entryInfoRec] at hmem
  | succ f ihf =>
    intro item sid fi hmem
    simp only [entryInfoRec] at hmem
    exact entryInfoLoopLevels store (entryInfoRec cfg store fs f) ihf _ _ _ _ _ fi hmem

theorem pushRowGet (r : List (ColumnType × List Cell)) (row : List Cell)
    (j : Nat) :
    (pushRow r row).get? j =
      (r.get? j).map (fun p => (p.1, p.2 ++ (row.get? j).toList)) := by
  induction r generalizing row j with
  | nil => simp [pushRow]
  | cons p rest ih =>
    rcases p with ⟨c, cs⟩
    cases row with
    | nil =>
      cases j with
      | zero => simp [pushRow]
      | succ n =>
        rw [show pushRow ((c, cs) :: rest) [] = (c, cs) :: pushRow rest [] from rfl]
        rw [List.get?_cons_succ, List.get?_cons_succ, ih [] n]
        rfl
    | cons cell row =>
      cases j with
      | zero => simp [pushRow]
      | succ n =>
        rw [show pushRow ((c, cs) :: rest) (cell :: row) =
          (c, cs ++ [cell]) :: pushRow rest row from rfl]
        rw [List.get?_cons_succ, List.get?_cons_succ, ih row n]
        rfl

theorem filterMapAllSomeGet {f : α → Option β} (l : List α)
    (h : ∀ x ∈ l, (f x).isSome) (i : Nat) :
    (l.filterMap f).get? i = (l.get? i).bind f := by
  induction l generalizing i with
  | nil => simp
  | cons x xs ih =>
    rcases hfx : f x with _ | b
    · have := h x (by simp)
      rw [hfx] at this
      simp at this
    · rw [List.filterMap_cons, hfx]
      cases i with
      | zero => simp [hfx]
      | succ n => simpa using ih (fun y hy => h y (by simp [hy])) n

theorem filterMapAllSomeLength {f : α → Option β} (l : List α)
    (h : ∀ x ∈ l, (f x).isSome) :
    (l.filterMap f).length = l.length := by
  induction l with
  | nil => simp
  | cons x xs ih =>
    rcases hfx : f x with _ | b
    · have := h x (by simp)
      rw [hfx] at this
      simp at this
    · rw [List.filterMap_cons, hfx]
      simp only [List.length_cons]
      rw [ih (fun y hy => h y (by simp [hy]))]

theorem makeRowAuxLength (st : TreeState) (fi : FileItem) (isRoot : Bool) :
    ∀ (cols : List ColumnType) (s bs : Nat),
    (makeRowAux st fi isRoot cols s bs).length = cols.length := by
  intro cols
  induction cols with
  | nil => intro s bs; simp [makeRowAux]
  | cons col rest ih =>
    intro s bs
    simp only [makeRowAux, List.length_cons]
    rw [ih]

theorem makeRowLength (st : TreeState) (fi : FileItem) (isRoot : Bool) :
    (makeRow st fi isRoot).length = st.config.columns.length := by
  simp [makeRow, makeRowAuxLength]

theorem makeRowsListGet (st : TreeState) (b : Bool) :
    ∀ (items : List FileItem) (flag : Bool) (i : Nat),
    (makeRowsList st b items flag).get? i =
      (items.get? i).map
        (fun it => makeRow st it (b && flag && decide (i = 0))) := by
  intro items
  induction items with
  | nil => intro flag i; simp [makeRowsList]
  | cons x xs ih =>
    intro flag i
    cases i with
    | zero => simp [makeRowsList, Bool.and_assoc]
    | succ n =>
      simp only [makeRowsList, List.get?_cons_succ, ih false n]
      have : (b && false && decide (n = 0)) = (b && flag && decide (n + 1 = 0)) := by
        simp
      rw [this]

theorem makeRowsListLength (st : TreeState) (b : Bool) :
    ∀ (items : List FileItem) (flag : Bool),
    (makeRowsList st b items flag).length = items.length := by
  intro items
  induction items with
  | nil => intro flag; simp [makeRowsList]
  | cons x xs ih =>
    intro flag
    simp only [makeRowsList, List.length_cons]
    rw [ih]

theorem makeRowsListRowLen (st : TreeState) (b : Bool) :
    ∀ (items : List FileItem) (flag : Bool) (row : List Cell),
    row ∈ makeRowsList st b items flag →
    row.length = st.config.columns.length := by
  intro items
  induction items with
  | nil => intro flag row h; simp [makeRowsList] at h
  | cons x xs ih =>
    intro flag row h
    simp only [makeRowsList, List.mem_cons] at h
    rcases h with h | h
    · rw [h, makeRowLength]
    · exact ih false row h

theorem makeCellsFoldGet (st : TreeState) (b : Bool) :
    ∀ (items : List FileItem) (r0 : List (ColumnType × List Cell))
      (flag : Bool) (j : Nat),
    ((items.foldl
      (fun acc fileitem => (pushRow acc.1 (makeRow st fileitem (b && acc.2)), false))
      (r0, flag)).1).get? j =
      (r0.get? j).map (fun p =>
        (p.1, p.2 ++ (makeRowsList st b items flag).filterMap
          (fun row => row.get? j))) := by
  intro items
  induction items with
  | nil =>
    intro r0 flag j
    simp [makeRowsList]
  | cons x xs ih =>
    intro r0 flag j
    simp only [List.foldl_cons]
    rw [ih (pushRow r0 (makeRow st x (b && flag))) false j]
    rw [pushRowGet]
    cases hr : r0.get? j with
    | none => simp
    | some p =>
      simp only [Option.map_some']
      simp only [makeRowsList, List.filterMap_cons]
      cases hrow : (makeRow st x (b && flag)).get? j with
      | none => simp [hrow]
      | some c => simp [hrow, List.append_assoc]

theorem makeCellsGet (st : TreeState) (items : List FileItem) (b : Bool)
    (j : Nat) :
    (Tree.makeCells st items b).get? j =
      (st.config.columns.get? j).map (fun c =>
        (c, (makeRowsList st b items true).filterMap (fun row => row.get? j))) := by
  simp only [Tree.makeCells]
  rw [makeCellsFoldGet]
  rw [List.get?_map]
  cases h : st.config.columns.get? j <;> simp

theorem listSliceSingleGet (items : List FileItem) (i : Nat) :
    (listSlice items i (i + 1)).get? 0 = items.get? i := by
  simp only [listSlice]
  have h1 : i + 1 - i = 1 := by omega
  rw [h1, listTakeGet]
  simp [listDropGet]

/-- C6: for every node list, every row index and every column
configuration, the single-row layout used by `update_cells` for the
range `[i, i+1)` (root context exactly when `i = 0`) produces cells
identical, per configured column, to the i-th cells of the batch
layout of the whole list. -/
theorem c6_single_row_layout_eq_batch (st : TreeState)
    (items : List FileItem) (i : Nat) (hi : i < items.length) :
    (Tree.makeCells st (listSlice items i (i + 1)) (decide (i = 0))).map
      (fun p => (p.1, p.2.get? 0)) =
    (Tree.makeCells st items true).map (fun p => (p.1, p.2.get? i)) := by
  apply List.ext
  intro j
  rw [List.get?_map, List.get?_map, makeCellsGet, makeCellsGet]
  cases hc : st.config.columns.get? j with
  | none => simp
  | some c =>
    have hj : j < st.config.columns.length := by
      by_contra hcon
      rw [List.get?_eq_none.mpr (by omega)] at hc
      exact Option.noConfusion hc
    simp only [Option.map_some']
    have hsome : ∀ (b2 : Bool) (its : List FileItem) (fl : Bool),
        ∀ row ∈ makeRowsList st b2 its fl, (row.get? j).isSome := by
      intro b2 its fl row hrow
      have hlen := makeRowsListRowLen st b2 its fl row hrow
      rw [Option.isSome_iff_ne_none]
      intro hnone
      rw [List.get?_eq_none] at hnone
      omega
    rw [filterMapAllSomeGet _ (hsome _ _ _), filterMapAllSomeGet _ (hsome _ _ _)]
    rw [makeRowsListGet, makeRowsListGet, listSliceSingleGet]
    cases hit : items.get? i with
    | none =>
      rw [List.get?_eq_none] at hit
      omega
    | some it =>
      simp

/-- Witness for C6 at a concrete three-row state and row 1. -/
theorem c6_single_row_layout_eq_batch_witness :
    1 < stSel.fileItems.length ∧
    ((Tree.makeCells stSel (listSlice stSel.fileItems 1 (1 + 1)) (decide (1 = 0))).map
      (fun p => (p.1, p.2.get? 0)) =
    (Tree.makeCells stSel stSel.fileItems true).map (fun p => (p.1, p.2.get? 1))) :=
  ⟨by decide, c6_single_row_layout_eq_batch stSel stSel.fileItems 1 (by decide)⟩

theorem makeRowAuxFilenamePad (st : TreeState) (fi : FileItem) (isRoot : Bool) :
    ∀ (cols : List ColumnType) (s bs : Nat) (j : Nat) (cell : Cell),
    cols.get? j = some ColumnType.FILENAME →
    (makeRowAux st fi isRoot cols s bs).get? j = some cell →
    cell.colStart + strWidth cell.text < KSTOP →
    cell.colEnd = KSTOP ∧
    cell.byteEnd = cell.byteStart + utf8Len cell.text +
      (KSTOP - (cell.colStart + strWidth cell.text)) := by
  intro cols
  induction cols with
  | nil => intro s bs j cell hj; simp at hj
  | cons col rest ih =>
    intro s bs j cell hj hcell hw
    cases j with
    | zero =>
      have hcol : col = ColumnType.FILENAME := by
        simpa using hj
      subst hcol
      simp only [makeRowAux, List.get?_cons_zero, Option.some.injEq] at hcell
      subst hcell
      simp only at hw ⊢
      constructor
      · rw [if_pos (show True ∧
            s + strWidth (cellNew st fi ColumnType.FILENAME isRoot).text < KSTOP
            from And.intro trivial hw)]
        omega
      · rw [if_pos (show True ∧
            s + strWidth (cellNew st fi ColumnType.FILENAME isRoot).text < KSTOP
            from And.intro trivial hw)]
    | succ n =>
      simp only [List.get?_cons_succ] at hj
      simp only [makeRowAux, List.get?_cons_succ] at hcell
      exact ih _ _ n cell hj hcell hw

/-- C8: for every row and every column configuration, a FILENAME cell
whose natural end column (start plus true display width of its text)
falls short of the alignment constant `KSTOP` is padded so that its
end column equals exactly `KSTOP`, and its byte extent is padded by
the same amount beyond the byte length of its text. -/
theorem c8_filename_padded_to_kstop (st : TreeState) (fi : FileItem)
    (isRoot : Bool) (j : Nat) (cell : Cell)
    (hj : st.config.columns.get? j = some ColumnType.FILENAME)
    (hcell : (makeRow st fi isRoot).get? j = some cell)
    (hw : cell.colStart + strWidth cell.text < KSTOP) :
    cell.colEnd = KSTOP ∧
    cell.byteEnd = cell.byteStart + utf8Len cell.text +
      (KSTOP - (cell.colStart + strWidth cell.text)) :=
  makeRowAuxFilenamePad st fi isRoot st.config.columns 0 0 j cell hj hcell hw

/-- Witness for C8: under the `mark:filename` configuration, a file
row whose name has display width 8 gets its filename cell padded to
end column exactly `KSTOP`. -/
theorem c8_filename_padded_to_kstop_witness :
    (let cell : Cell :=
      { colStart := 2, colEnd := 60, byteStart := 2, byteEnd := 60,
        text := "name.txt", hlGroup := some "tree_color_yellow" };
    cell.colEnd = KSTOP ∧
    cell.byteEnd = cell.byteStart + utf8Len cell.text +
      (KSTOP - (cell.colStart + strWidth cell.text))) :=
  c8_filename_padded_to_kstop stSel
    (FileItem.mk "/r/name.txt" metaFileW 0 none false 0) false 1
    { colStart := 2, colEnd := 60, byteStart := 2, byteEnd := 60,
      text := "name.txt", hlGroup := some "tree_color_yellow" }
    (by decide) (by decide) (by decide)

/-- C10: the column-kind conversion maps exactly the seven known names
to their kinds and panics (modelled `none`, aborting the whole
configuration update) on every other name; a panic inside the
`columns` loop aborts the update rather than producing an error
value. -/
theorem c10_column_conversion_panics_on_unknown :
    (columnTypeOfString "mark" = some ColumnType.MARK ∧
     columnTypeOfString "indent" = some ColumnType.INDENT ∧
     columnTypeOfString "git" = some ColumnType.GIT ∧
     columnTypeOfString "icon" = some ColumnType.ICON ∧
     columnTypeOfString "filename" = some ColumnType.FILENAME ∧
     columnTypeOfString "size" = some ColumnType.SIZE ∧
     columnTypeOfString "time" = some ColumnType.TIME) ∧
    (∀ s : String,
      s ∉ ["mark", "indent", "git", "icon", "filename", "size", "time"] →
      columnTypeOfString s = none) ∧
    (∀ v : String, (∃ s ∈ splitStr (Char.ofNat 58) v, columnTypeOfString s = none) →
      configColumnsUpdate v = none) := by
  refine ⟨by decide, ?_, ?_⟩
  · intro s hs
    simp only [List.mem_cons, List.not_mem_nil, or_false, not_or] at hs
    obtain ⟨h1, h2, h3, h4, h5, h6, h7⟩ := hs
    simp only [columnTypeOfString, h1, h2, h3, h4, h5, h6, h7, if_false]
  · intro v hv
    obtain ⟨s, hmem, hnone⟩ := hv
    simp only [configColumnsUpdate]
    generalize splitStr (Char.ofNat 58) v = parts at hmem
    induction parts with
    | nil => simp at hmem
    | cons x xs ih =>
      simp only [List.mem_cons] at hmem
      rcases hmem with hx | hxs
      · rw [hx] at hnone
        simp [colsFromStrings, hnone]
      · have := ih hxs
        simp only [colsFromStrings, this]
        cases columnTypeOfString x <;> simp

/-- Witness for C10 at the unknown name `foo` and the column list
`mark:foo`. -/
theorem c10_column_conversion_panics_on_unknown_witness :
    columnTypeOfString "foo" = none ∧ configColumnsUpdate "mark:foo" = none :=
  ⟨c10_column_conversion_panics_on_unknown.2.1 "foo" (by decide),
   c10_column_conversion_panics_on_unknown.2.2 "mark:foo"
     ⟨"foo", by decide,
      c10_column_conversion_panics_on_unknown.2.1 "foo" (by decide)⟩⟩

/-- C9: a rename whose resolved destination already exists stops with
the conflict error before any filesystem or tree mutation, and a
rename is actually performed only when the destination does not
exist. -/
theorem c9_rename_conflict_aborts (st : TreeState) (fs : Fs) (cursor : Nat)
    (newFilename : String) :
    (∀ cur, st.fileItems.get? (cursor - 1) = some cur →
      newFilename ≠ "" →
      pathJoin cur.path newFilename ≠ cur.path →
      (fs.stat (pathJoin cur.path newFilename)).isSome →
      Tree.renameDecision st fs cursor newFilename = RenameResult.conflict) ∧
    (∀ src dst, Tree.renameDecision st fs cursor newFilename =
        RenameResult.renamed src dst → fs.stat dst = none) := by
  constructor
  · intro cur hcur hne hdiff hex
    simp only [Tree.renameDecision, hcur]
    rw [if_neg hne, if_neg hdiff, if_pos hex]
  · intro src dst hren
    simp only [Tree.renameDecision] at hren
    cases hcur : st.fileItems.get? (cursor - 1) with
    | none => rw [hcur] at hren; exact RenameResult.noConfusion hren
    | some cur =>
      rw [hcur] at hren
      simp only at hren
      by_cases hne : newFilename = ""
      · rw [if_pos hne] at hren
        exact RenameResult.noConfusion hren
      · rw [if_neg hne] at hren
        by_cases hdiff : pathJoin cur.path newFilename = cur.path
        · rw [if_pos hdiff] at hren
          exact RenameResult.noConfusion hren
        · rw [if_neg hdiff] at hren
          by_cases hex : (fs.stat (pathJoin cur.path newFilename)).isSome
          · rw [if_pos hex] at hren
            exact RenameResult.noConfusion hren
          · rw [if_neg hex] at hren
            have hd : dst = pathJoin cur.path newFilename := by
              cases hren
              rfl
            rw [hd]
            cases hstat : fs.stat (pathJoin cur.path newFilename) with
            | none => rfl
            | some m => rw [hstat] at hex; simp at hex

/-- Witness for C9: renaming `/r/f.txt` (row 3 of the rebuilt state)
to the existing absolute path `/r/d` is refused as a conflict. -/
theorem c9_rename_conflict_aborts_witness :
    Tree.renameDecision stW fsW 3 "/r/d" = RenameResult.conflict :=
  (c9_rename_conflict_aborts stW fsW 3 "/r/d").1
    (FileItem.mk "/r/f.txt" metaFileW 0
      (some (FileItem.new "/r" metaDirW 0)) true 2)
    (by rfl) (by decide) (by decide) (by decide)

/-- C2: evaluation of the selection-remap bug of
`insert_items_and_cells` at a failing input. Starting from three rows
with rows 1 and 2 selected and inserting one node at position 1, the
remap loop first moves the selection at old index 1 to index 2 --
which collides with the still-unprocessed selection at old index 2 --
and the next iteration then moves that single set element to 3. The
code ends with selection `{3}`, while the claimed shift-by-k remap
gives `{2, 3}`: the selection formerly at index 1 is lost. -/
theorem c2_insert_selection_remap_loses_entry :
    (Tree.insertItemsAndCells stSel 1 [newItemSel]).toOption.map
      TreeState.selectedItems = some {3} ∧
    specInsertShift stSel.selectedItems 1 1 = {2, 3} ∧
    ({3} : Finset Nat) ≠ ({2, 3} : Finset Nat) := by
  refine ⟨by decide, by decide, by decide⟩

/-- C5 counterexample: the rename action resolves its target by direct
indexing, so an out-of-range cursor panics instead of returning an
IndexError (the state `stW` has three rows; cursor 5 is out of
range). -/
theorem c5_rename_panics_on_bad_cursor :
    Tree.renameDecision stW fsW 5 "x" = RenameResult.panics := by
  rfl

/-- C5 as amended: the actions that validate their index (`open_tree`
and `close_tree`, and through them the tree open/close actions) return
an index error and commit no mutation on an out-of-range index, but
the rename action indexes the node list directly and panics on an
out-of-range cursor instead of returning an error. -/
theorem c5_index_errors_checked_actions_only :
    (∀ (fs : Fs) (fuel : Nat) (st : TreeState) (idx : Nat),
      idx ≠ 0 → st.fileItems.get? idx = none →
      Tree.openTree fs fuel st idx =
        Except.error ("Index out of bound: " ++ toString idx)) ∧
    (∀ (st : TreeState) (idx : Nat),
      idx ≠ 0 → st.fileItems.get? idx = none →
      Tree.closeTree st idx =
        Except.error ("Index out of bound: " ++ toString idx)) ∧
    (∀ (st : TreeState) (fs : Fs) (cursor : Nat) (newFilename : String),
      st.fileItems.get? (cursor - 1) = none →
      Tree.renameDecision st fs cursor newFilename = RenameResult.panics) := by
  refine ⟨?_, ?_, ?_⟩
  · intro fs fuel st idx h0 hnone
    simp only [Tree.openTree, h0, if_false, hnone]
  · intro st idx h0 hnone
    simp only [Tree.closeTree, h0, if_false, hnone]
  · intro st fs cursor newFilename hnone
    simp only [Tree.renameDecision, hnone]

/-- Witness for the amended C5 at the concrete rebuilt state (three
rows) with out-of-range indices. -/
theorem c5_index_errors_checked_actions_only_witness :
    Tree.openTree fsW 9 stW 7 =
      Except.error ("Index out of bound: " ++ toString 7) ∧
    Tree.closeTree stW 7 =
      Except.error ("Index out of bound: " ++ toString 7) ∧
    Tree.renameDecision stW fsW 9 "x" = RenameResult.panics :=
  ⟨c5_index_errors_checked_actions_only.1 fsW 9 stW 7 (by decide) (by rfl),
   c5_index_errors_checked_actions_only.2.1 stW 7 (by decide) (by rfl),
   c5_index_errors_checked_actions_only.2.2 stW fsW 9 "x" (by rfl)⟩

theorem entryInfoLoopExpand (store : List (String × Bool))
    (rec : FileItem → Nat → List FileItem × Nat) :
    ∀ (entries : List (String × FsMeta)) (item : FileItem) (level : Int)
      (count i sid : Nat) (name : String) (meta : FsMeta),
    (name, meta) ∈ entries →
    storeLookup store (pathJoinSeg item.path name) = some true →
    ∃ (la : Bool) (sid2 : Nat),
      List.IsInfix
        (FileItem.mk (pathJoinSeg item.path name) meta level (some item) la sid2 ::
          (rec (FileItem.mk (pathJoinSeg item.path name) meta level (some item)
            la sid2) (sid2 + 1)).1)
        (entryInfoLoop store rec item level count entries i sid).1 := by
  intro entries
  induction entries with
  | nil =>
    intro item level count i sid name meta hmem
    simp at hmem
  | cons e rest ih =>
    rcases e with ⟨ename, emeta⟩
    intro item level count i sid name meta hmem hexp
    rcases List.mem_cons.mp hmem with hhead | htail
    · obtain ⟨hn, hm⟩ := Prod.mk.injEq .. ▸ hhead
      subst hn
      subst hm
      refine ⟨(i == count - 1), sid, ?_⟩
      simp only [entryInfoLoop, fileItemPathMk, hexp, if_pos]
      exact ⟨[], _, rfl⟩
    · simp only [entryInfoLoop, fileItemPathMk]
      by_cases hexph : storeLookup store (pathJoinSeg item.path ename) = some true
      · rw [if_pos hexph]
        obtain ⟨la, sid2, hinf⟩ := ih item level count (i + 1)
          (rec (FileItem.mk (pathJoinSeg item.path ename) emeta level
            (some item) (i == count - 1) sid) (sid + 1)).2 name meta htail hexp
        refine ⟨la, sid2, ?_⟩
        refine List.IsInfix.trans hinf ?_
        exact ((List.suffix_append _ _).trans (List.suffix_cons _ _)).isInfix
      · rw [if_neg hexph]
        obtain ⟨la, sid2, hinf⟩ := ih item level count (i + 1) (sid + 1)
          name meta htail hexp
        refine ⟨la, sid2, ?_⟩
        exact List.IsInfix.trans hinf (List.suffix_cons _ _).isInfix

theorem entryInfoRecExpand (cfg : Config) (store : List (String × Bool))
    (fs : Fs) (fuel : Nat) (item : FileItem) (sid : Nat)
    (name : String) (meta : FsMeta)
    (hmem : (name, meta) ∈ scanEntries cfg fs item)
    (hexp : storeLookup store (pathJoinSeg item.path name) = some true) :
    ∃ (la : Bool) (sid2 : Nat),
      List.IsInfix
        (FileItem.mk (pathJoinSeg item.path name) meta (item.level + 1)
          (some item) la sid2 ::
          (entryInfoRec cfg store fs fuel
            (FileItem.mk (pathJoinSeg item.path name) meta (item.level + 1)
              (some item) la sid2) (sid2 + 1)).1)
        (entryInfoRec cfg store fs (fuel + 1) item sid).1 := by
  simp only [entryInfoRec]
  exact entryInfoLoopExpand store (entryInfoRec cfg store fs fuel) _ item
    (item.level + 1) _ 0 sid name meta hmem hexp

theorem renumberFromGe (start : Nat) (items : List FileItem)
    (sel : Finset Nat) (h : items.length ≤ start) :
    renumberFrom start items sel = (items, sel) := by
  have hz : items.length - start = 0 := by omega
  simp [renumberFrom, hz, natRange]

theorem listSpliceNilZero (items : List FileItem) :
    listSplice ([] : List FileItem) 0 0 items = items := by
  simp [listSplice]

/-- C4 counterexample: `change_root` does not clear the selection set.
Re-rooting a tree whose selection is `{0}` leaves the selection
`{0}`, not empty, contradicting the claim that rebuild clears the
selection. -/
theorem c4_change_root_keeps_selection_counterexample :
    (Tree.changeRoot fsW 9 { initialTree cfgW with selectedItems := {0} }
      "/r").toOption.map TreeState.selectedItems = some {0} ∧
    ({0} : Finset Nat) ≠ (∅ : Finset Nat) := by
  refine ⟨by decide, by decide⟩

/-- C4 as amended: rebuilding at a directory path builds the node list
afresh from the recursive scan (the old node list and cells do not
influence the result), marks the root path expanded in the expand
store, and recurses into every directory of the root listing that the
expand store marks expanded, so its subtree reappears right after it;
the selection set, however, is carried over unchanged rather than
cleared. -/
theorem c4_change_root_rebuilds_but_keeps_selection (fs : Fs) (fuel : Nat)
    (st : TreeState) (path : String) (m : FsMeta)
    (hstat : fs.stat path = some m) (hdir : m.isDir = true) :
    ∃ st2, Tree.changeRoot fs (fuel + 1) st path = Except.ok st2 ∧
      st2.fileItems = FileItem.new path m 0 ::
        (entryInfoRec st.config (storeInsert st.expandStore path true) fs
          (fuel + 1) (FileItem.new path m 0) 1).1 ∧
      storeLookup st2.expandStore path = some true ∧
      st2.selectedItems = st.selectedItems ∧
      (∀ items0 cm0, Tree.changeRoot fs (fuel + 1)
        { st with fileItems := items0, colMap := cm0 } path =
        Tree.changeRoot fs (fuel + 1) st path) ∧
      (∀ name meta,
        (name, meta) ∈ scanEntries st.config fs (FileItem.new path m 0) →
        storeLookup (storeInsert st.expandStore path true)
          (pathJoinSeg path name) = some true →
        ∃ (la : Bool) (sid2 : Nat),
          List.IsInfix
            (FileItem.mk (pathJoinSeg path name) meta 0
              (some (FileItem.new path m 0)) la sid2 ::
              (entryInfoRec st.config (storeInsert st.expandStore path true)
                fs fuel
                (FileItem.mk (pathJoinSeg path name) meta 0
                  (some (FileItem.new path m 0)) la sid2) (sid2 + 1)).1)
            st2.fileItems) := by
  have hguard : (!m.isDir) = false := by rw [hdir]; rfl
  have hchange : ∀ st0 : TreeState, st0.config = st.config →
      st0.expandStore = st.expandStore → st0.selectedItems = st.selectedItems →
      Tree.changeRoot fs (fuel + 1) st0 path =
      Tree.insertItemsAndCells
        { st0 with expandStore := storeInsert st.expandStore path true,
                   colMap := fun _ => ([] : List Cell),
                   fileItems := ([] : List FileItem) } 0
        (FileItem.new path m 0 ::
          (entryInfoRec st.config (storeInsert st.expandStore path true) fs
            (fuel + 1) (FileItem.new path m 0) 1).1) := by
    intro st0 hc he hs
    simp only [Tree.changeRoot, hstat, hguard, Bool.false_eq_true, if_false, hc, he]
  rcases hok : Tree.insertItemsAndCells
      { st with expandStore := storeInsert st.expandStore path true,
                colMap := fun _ => ([] : List Cell),
                fileItems := ([] : List FileItem) } 0
      (FileItem.new path m 0 ::
        (entryInfoRec st.config (storeInsert st.expandStore path true) fs
          (fuel + 1) (FileItem.new path m 0) 1).1) with msg | st2
  case error =>
    simp only [Tree.insertItemsAndCells, List.length_nil, gt_iff_lt,
      Nat.lt_irrefl, if_false] at hok
    exact Except.noConfusion hok
  case ok =>
    have hok2 := hok
    simp only [Tree.insertItemsAndCells, List.length_nil, gt_iff_lt,
      Nat.lt_irrefl, if_false, listSpliceNilZero, Nat.zero_add] at hok2
    rw [renumberFromGe _ _ _ (Nat.le_refl _)] at hok2
    have hpay := Except.ok.inj hok2
    refine ⟨st2, ?_, ?_, ?_, ?_, ?_, ?_⟩
    · rw [hchange st rfl rfl rfl]
      exact hok
    · rw [← hpay]
    · rw [← hpay]
      show storeLookup (storeInsert st.expandStore path true) path = some true
      rw [storeLookupInsert]
      simp
    · rw [← hpay]
    · intro items0 cm0
      rw [hchange { st with fileItems := items0, colMap := cm0 } rfl rfl rfl,
        hchange st rfl rfl rfl]
    · intro name meta hmem hexp
      obtain ⟨la, sid2, hinf⟩ := entryInfoRecExpand st.config
        (storeInsert st.expandStore path true) fs fuel
        (FileItem.new path m 0) 1 name meta hmem hexp
      refine ⟨la, sid2, ?_⟩
      have hitems : st2.fileItems = FileItem.new path m 0 ::
          (entryInfoRec st.config (storeInsert st.expandStore path true) fs
            (fuel + 1) (FileItem.new path m 0) 1).1 := by
        rw [← hpay]
      rw [hitems]
      exact List.IsInfix.trans hinf (List.suffix_cons _ _).isInfix

/-- Witness for the amended C4: rebuilding at `/r` from a fresh
state. -/
theorem c4_change_root_rebuilds_but_keeps_selection_witness :
    ∃ st2, Tree.changeRoot fsW (8 + 1) (initialTree cfgW) "/r" = Except.ok st2 ∧
      st2.fileItems = FileItem.new "/r" metaDirW 0 ::
        (entryInfoRec (initialTree cfgW).config
          (storeInsert (initialTree cfgW).expandStore "/r" true) fsW
          (8 + 1) (FileItem.new "/r" metaDirW 0) 1).1 ∧
      storeLookup st2.expandStore "/r" = some true ∧
      st2.selectedItems = (initialTree cfgW).selectedItems ∧
      (∀ items0 cm0, Tree.changeRoot fsW (8 + 1)
        { initialTree cfgW with fileItems := items0, colMap := cm0 } "/r" =
        Tree.changeRoot fsW (8 + 1) (initialTree cfgW) "/r") ∧
      (∀ name meta,
        (name, meta) ∈ scanEntries (initialTree cfgW).config fsW
          (FileItem.new "/r" metaDirW 0) →
        storeLookup (storeInsert (initialTree cfgW).expandStore "/r" true)
          (pathJoinSeg "/r" name) = some true →
        ∃ (la : Bool) (sid2 : Nat),
          List.IsInfix
            (FileItem.mk (pathJoinSeg "/r" name) meta 0
              (some (FileItem.new "/r" metaDirW 0)) la sid2 ::
              (entryInfoRec (initialTree cfgW).config
                (storeInsert (initialTree cfgW).expandStore "/r" true)
                fsW 8
                (FileItem.mk (pathJoinSeg "/r" name) meta 0
                  (some (FileItem.new "/r" metaDirW 0)) la sid2) (sid2 + 1)).1)
            st2.fileItems) :=
  c4_change_root_rebuilds_but_keeps_selection fsW 8 (initialTree cfgW) "/r"
    metaDirW (by rfl) (by rfl)

theorem colMapFoldNotKey (s e : Nat) :
    ∀ (L : List (ColumnType × List Cell)) (m0 : ColumnType → List Cell)
      (c : ColumnType),
    c ∉ L.map Prod.fst →
    (L.foldl (fun m pc => fun x =>
      if x = pc.1 then listSplice (m pc.1) s e pc.2 else m x) m0) c = m0 c := by
  intro L
  induction L with
  | nil => intro m0 c _; rfl
  | cons p rest ih =>
    intro m0 c hc
    simp only [List.map_cons, List.mem_cons, not_or] at hc
    obtain ⟨hc1, hc2⟩ := hc
    simp only [List.foldl_cons]
    rw [ih _ c hc2]
    simp only [hc1, if_false]

theorem colMapFoldKey (s e : Nat) :
    ∀ (L : List (ColumnType × List Cell)) (m0 : ColumnType → List Cell)
      (c : ColumnType) (cs : List Cell),
    (L.map Prod.fst).Nodup → (c, cs) ∈ L →
    (L.foldl (fun m pc => fun x =>
      if x = pc.1 then listSplice (m pc.1) s e pc.2 else m x) m0) c =
      listSplice (m0 c) s e cs := by
  intro L
  induction L with
  | nil => intro m0 c cs _ h; simp at h
  | cons p rest ih =>
    intro m0 c cs hnd hmem
    simp only [List.map_cons, List.nodup_cons] at hnd
    obtain ⟨hk, hnd2⟩ := hnd
    simp only [List.foldl_cons]
    rcases List.mem_cons.mp hmem with hhead | htail
    · have hp1 : p.1 = c := by rw [← hhead]
      have hp2 : p.2 = cs := by rw [← hhead]
      have hcnotrest : c ∉ rest.map Prod.fst := by
        rw [← hp1]
        exact hk
      rw [colMapFoldNotKey s e rest _ c hcnotrest]
      simp [hp1, hp2]
    · have hcrest : c ∈ rest.map Prod.fst := by
        exact List.mem_map.mpr ⟨(c, cs), htail, rfl⟩
      have hne : ¬ c = p.1 := by
        intro h
        rw [h] at hcrest
        exact hk hcrest
      rw [ih _ c cs hnd2 htail]
      simp only [hne, if_false]

theorem makeCellsKeys (st : TreeState) (items : List FileItem) (b : Bool) :
    (Tree.makeCells st items b).map Prod.fst = st.config.columns := by
  apply List.ext
  intro j
  rw [List.get?_map, makeCellsGet]
  cases h : st.config.columns.get? j <;> simp

theorem makeCellsEntryLen (st : TreeState) (items : List FileItem) (b : Bool)
    (p : ColumnType × List Cell) (hp : p ∈ Tree.makeCells st items b) :
    p.2.length = items.length := by
  obtain ⟨j, hj⟩ := List.mem_iff_get?.mp hp
  rw [makeCellsGet] at hj
  cases hc : st.config.columns.get? j with
  | none => rw [hc] at hj; exact Option.noConfusion hj
  | some c =>
    rw [hc] at hj
    have hjlt : j < st.config.columns.length := by
      by_contra hcon
      rw [List.get?_eq_none.mpr (by omega)] at hc
      exact Option.noConfusion hc
    have hp2 : p.2 = (makeRowsList st b items true).filterMap
        (fun row => row.get? j) := by
      have := Option.some.inj hj
      rw [← this]
    rw [hp2]
    rw [filterMapAllSomeLength]
    · exact makeRowsListLength st b items true
    · intro row hrow
      have hlen := makeRowsListRowLen st b items true row hrow
      rw [Option.isSome_iff_ne_none]
      intro hnone
      rw [List.get?_eq_none] at hnone
      omega

theorem insertItemsAndCellsSpec (st : TreeState) (pos : Nat)
    (items : List FileItem) (hpos : pos ≤ st.fileItems.length) :
    ∃ st2, Tree.insertItemsAndCells st pos items = Except.ok st2 ∧
      st2.config = st.config ∧
      st2.expandStore = st.expandStore ∧
      st2.fileItems.length = st.fileItems.length + items.length ∧
      (∀ i, st2.fileItems.get? i =
        if i < pos then st.fileItems.get? i
        else if i < pos + items.length then items.get? (i - pos)
        else (st.fileItems.get? (i - items.length)).map (fun fi => fi.setId i)) ∧
      (st.config.columns.Nodup → ∀ c, c ∈ st.config.columns →
        ∃ cs : List Cell, cs.length = items.length ∧
          st2.colMap c = listSplice (st.colMap c) pos pos cs) := by
  have hguard : ¬ (pos > st.fileItems.length) := by omega
  have hlen1 : (listSplice st.fileItems pos pos items).length =
      pos + items.length + (st.fileItems.length - pos) :=
    listSpliceLength st.fileItems pos pos items hpos
  rcases hok : Tree.insertItemsAndCells st pos items with msg | st2
  case error =>
    simp only [Tree.insertItemsAndCells, hguard, if_false] at hok
    exact Except.noConfusion hok
  case ok =>
    have hok2 := hok
    simp only [Tree.insertItemsAndCells, hguard, if_false] at hok2
    have hpay := Except.ok.inj hok2
    refine ⟨st2, rfl, ?_, ?_, ?_, ?_, ?_⟩
    · rw [← hpay]
    · rw [← hpay]
    · rw [← hpay]
      show (renumberFrom (pos + items.length)
        (listSplice st.fileItems pos pos items) st.selectedItems).1.length = _
      rw [renumberFromLength, hlen1]
      omega
    · intro i
      rw [← hpay]
      show (renumberFrom (pos + items.length)
        (listSplice st.fileItems pos pos items) st.selectedItems).1.get? i = _
      rw [renumberFromGet]
      by_cases h1 : i < pos
      · have hc : ¬ (pos + items.length ≤ i ∧
            i < (listSplice st.fileItems pos pos items).length) := by omega
        rw [if_neg hc, if_pos h1, listSpliceGet _ _ _ _ hpos, if_pos h1]
      · by_cases h2 : i < pos + items.length
        · have hc : ¬ (pos + items.length ≤ i ∧
              i < (listSplice st.fileItems pos pos items).length) := by omega
          rw [if_neg hc, if_neg h1, if_pos h2, listSpliceGet _ _ _ _ hpos,
            if_neg h1, if_pos h2]
        · by_cases h3 : i < (listSplice st.fileItems pos pos items).length
          · have hc : (pos + items.length ≤ i ∧
                i < (listSplice st.fileItems pos pos items).length) := by omega
            rw [if_pos hc, if_neg h1, if_neg h2, listSpliceGet _ _ _ _ hpos,
              if_neg h1, if_neg h2]
            have harith : pos + (i - pos - items.length) = i - items.length := by
              omega
            rw [harith]
          · have hc : ¬ (pos + items.length ≤ i ∧
                i < (listSplice st.fileItems pos pos items).length) := by omega
            rw [if_neg hc, listSpliceGet _ _ _ _ hpos, if_neg h1, if_neg h2]
            have hnone1 : st.fileItems.get? (pos + (i - pos - items.length)) =
                none := by
              rw [List.get?_eq_none]
              omega
            have hnone2 : st.fileItems.get? (i - items.length) = none := by
              rw [List.get?_eq_none]
              omega
            rw [hnone1, hnone2, if_neg h1, if_neg h2]
            rfl
    · intro hnd c hc
      have hkeys := makeCellsKeys
        { st with
          fileItems := (renumberFrom (pos + items.length)
            (listSplice st.fileItems pos pos items) st.selectedItems).1,
          selectedItems := (renumberFrom (pos + items.length)
            (listSplice st.fileItems pos pos items) st.selectedItems).2 }
        items (decide (pos = 0))
      have hc2 : c ∈ (Tree.makeCells
          { st with
            fileItems := (renumberFrom (pos + items.length)
              (listSplice st.fileItems pos pos items) st.selectedItems).1,
            selectedItems := (renumberFrom (pos + items.length)
              (listSplice st.fileItems pos pos items) st.selectedItems).2 }
          items (decide (pos = 0))).map Prod.fst := by
        rw [hkeys]
        exact hc
      obtain ⟨p, hpL, hp1⟩ := List.mem_map.mp hc2
      refine ⟨p.2, makeCellsEntryLen _ items (decide (pos = 0)) p hpL, ?_⟩
      rw [← hpay]
      show (Tree.makeCells _ items (decide (pos = 0))).foldl
        (fun m pc => fun c => if c = pc.1 then listSplice (m pc.1) pos pos pc.2
          else m c) st.colMap c = _
      have hmem2 : (c, p.2) ∈ Tree.makeCells
          { st with
            fileItems := (renumberFrom (pos + items.length)
              (listSplice st.fileItems pos pos items) st.selectedItems).1,
            selectedItems := (renumberFrom (pos + items.length)
              (listSplice st.fileItems pos pos items) st.selectedItems).2 }
          items (decide (pos = 0)) := by
        rw [← hp1]
        exact hpL
      exact colMapFoldKey pos pos _ st.colMap c p.2
        (by rw [hkeys]; exact hnd) hmem2

theorem removeItemsAndCellsSpec (st : TreeState) (start e : Nat)
    (hs : start ≤ st.fileItems.length) :
    (Tree.removeItemsAndCells st start e).config = st.config ∧
    (Tree.removeItemsAndCells st start e).expandStore = st.expandStore ∧
    (Tree.removeItemsAndCells st start e).fileItems.length =
      start + (st.fileItems.length - e) ∧
    (∀ i, (Tree.removeItemsAndCells st start e).fileItems.get? i =
      if i < start then st.fileItems.get? i
      else (st.fileItems.get? (e + (i - start))).map (fun fi => fi.setId i)) ∧
    (∀ c, (Tree.removeItemsAndCells st start e).colMap c =
      listSplice (st.colMap c) start e []) := by
  have hlen1 : (listSplice st.fileItems start e []).length =
      start + 0 + (st.fileItems.length - e) :=
    listSpliceLength st.fileItems start e [] hs
  refine ⟨rfl, rfl, ?_, ?_, fun c => rfl⟩
  · show (renumberFrom start (listSplice st.fileItems start e []) _).1.length = _
    rw [renumberFromLength, hlen1]
    omega
  · intro i
    show (renumberFrom start (listSplice st.fileItems start e []) _).1.get? i = _
    rw [renumberFromGet]
    by_cases h1 : i < start
    · have hc : ¬ (start ≤ i ∧ i < (listSplice st.fileItems start e []).length) := by
        omega
      rw [if_neg hc, if_pos h1, listSpliceGet _ _ _ _ hs, if_pos h1]
    · rw [if_neg h1]
      by_cases h2 : i < (listSplice st.fileItems start e []).length
      · have hc : (start ≤ i ∧ i < (listSplice st.fileItems start e []).length) := by
          omega
        rw [if_pos hc, listSpliceGet _ _ _ _ hs, if_neg h1]
        have hc2 : ¬ i < start + ([] : List FileItem).length := by
          simp
          omega
        rw [if_neg hc2]
        have harith : e + (i - start - ([] : List FileItem).length) =
            e + (i - start) := by
          simp
        rw [harith]
      · have hc : ¬ (start ≤ i ∧ i < (listSplice st.fileItems start e []).length) := by
          omega
        rw [if_neg hc, listSpliceGet _ _ _ _ hs, if_neg h1]
        have hc2 : ¬ i < start + ([] : List FileItem).length := by
          simp
          omega
        rw [if_neg hc2]
        have hnone1 : st.fileItems.get? (e + (i - start - ([] : List FileItem).length)) =
            none := by
          rw [List.get?_eq_none]
          simp only [List.length_nil, Nat.sub_zero]
          omega
        have hnone2 : st.fileItems.get? (e + (i - start)) = none := by
          rw [List.get?_eq_none]
          omega
        rw [hnone1, hnone2]
        rfl

theorem updateCellsSpec (st : TreeState) (sl el : Nat) :
    (Tree.updateCells st sl el).config = st.config ∧
    (Tree.updateCells st sl el).expandStore = st.expandStore ∧
    (Tree.updateCells st sl el).fileItems = st.fileItems ∧
    (Tree.updateCells st sl el).selectedItems = st.selectedItems ∧
    (st.config.columns.Nodup → ∀ c, c ∈ st.config.columns →
      ∃ cs : List Cell, cs.length = (listSlice st.fileItems sl el).length ∧
        (Tree.updateCells st sl el).colMap c = listSplice (st.colMap c) sl el cs) := by
  refine ⟨rfl, rfl, rfl, rfl, ?_⟩
  intro hnd c hc
  have hkeys := makeCellsKeys st (listSlice st.fileItems sl el) (decide (sl = 0))
  have hc2 : c ∈ (Tree.makeCells st (listSlice st.fileItems sl el)
      (decide (sl = 0))).map Prod.fst := by
    rw [hkeys]
    exact hc
  obtain ⟨p, hpL, hp1⟩ := List.mem_map.mp hc2
  refine ⟨p.2, makeCellsEntryLen _ _ _ p hpL, ?_⟩
  show (Tree.makeCells st (listSlice st.fileItems sl el)
      (decide (sl = 0))).foldl
    (fun m pc => fun c => if c = pc.1 then listSplice (m pc.1) sl el pc.2
      else m c) st.colMap c = _
  have hmem2 : (c, p.2) ∈ Tree.makeCells st (listSlice st.fileItems sl el)
      (decide (sl = 0)) := by
    rw [← hp1]
    exact hpL
  exact colMapFoldKey sl el _ st.colMap c p.2
    (by rw [hkeys]; exact hnd) hmem2

theorem listSliceLength (l : List α) (s e : Nat) :
    (listSlice l s e).length = min (e - s) (l.length - s) := by
  simp [listSlice, List.length_take, List.length_drop]

theorem updateCellsFileItems (st : TreeState) (sl el : Nat) :
    (Tree.updateCells st sl el).fileItems = st.fileItems := rfl

theorem updateCellsConfig (st : TreeState) (sl el : Nat) :
    (Tree.updateCells st sl el).config = st.config := rfl

theorem getSomeLt {l : List α} {i : Nat} {a : α} (h : l.get? i = some a) :
    i < l.length := by
  by_contra hcon
  rw [List.get?_eq_none.mpr (by omega)] at h
  exact Option.noConfusion h

theorem openTree_ok_idsOk (fs : Fs) (fuel : Nat) (st : TreeState) (idx : Nat)
    (st2 : TreeState) (hids : idsOk st)
    (hok : Tree.openTree fs fuel st idx = Except.ok st2) : idsOk st2 := by
  by_cases h0 : idx = 0
  · simp only [Tree.openTree, h0, if_pos] at hok
    rw [← Except.ok.inj hok]
    exact hids
  · simp only [Tree.openTree, h0, if_false] at hok
    cases hget : st.fileItems.get? idx with
    | none =>
      rw [hget] at hok
      exact Except.noConfusion hok
    | some cur =>
      rw [hget] at hok
      simp only at hok
      by_cases hcond : (cur.metadata.isDir &&
          !(match storeLookup st.expandStore cur.path with
            | some v => v
            | none => false)) = true
      · rw [if_pos hcond] at hok
        have hlen : idx < st.fileItems.length := getSomeLt hget
        obtain ⟨st3, hok3, hcfg3, hstore3, hlen3, hget3, hcol3⟩ :=
          insertItemsAndCellsSpec
            (Tree.updateCells
              { st with expandStore := storeInsert st.expandStore cur.path true }
              idx (idx + 1))
            (idx + 1)
            (entryInfoRec st.config st.expandStore fs fuel cur (idx + 1)).1
            (by rw [updateCellsFileItems]; show idx + 1 ≤ st.fileItems.length; omega)
        rw [hok3] at hok
        rw [← Except.ok.inj hok]
        intro i fi hgeti
        rw [hget3 i] at hgeti
        rw [updateCellsFileItems] at hgeti
        by_cases h1 : i < idx + 1
        · rw [if_pos h1] at hgeti
          exact hids i fi hgeti
        · rw [if_neg h1] at hgeti
          by_cases h2 : i < idx + 1 +
              (entryInfoRec st.config st.expandStore fs fuel cur (idx + 1)).1.length
          · rw [if_pos h2] at hgeti
            have hrec := (entryInfoRecIds st.config st.expandStore fs fuel
              cur (idx + 1)).1
            have := idsOfMapRange _ _ hrec (i - (idx + 1)) fi hgeti
            omega
          · rw [if_neg h2] at hgeti
            cases hbase : st.fileItems.get?
                (i - (entryInfoRec st.config st.expandStore fs fuel cur
                  (idx + 1)).1.length) with
            | none =>
              rw [hbase] at hgeti
              exact Option.noConfusion hgeti
            | some fj =>
              rw [hbase] at hgeti
              have : fj.setId i = fi := Option.some.inj hgeti
              rw [← this, setIdId]
      · rw [if_neg hcond] at hok
        rw [← Except.ok.inj hok]
        exact hids

theorem closeTree_ok_idsOk (st : TreeState) (idx : Nat) (st2 : TreeState)
    (hids : idsOk st) (hok : Tree.closeTree st idx = Except.ok st2) :
    idsOk st2 := by
  by_cases h0 : idx = 0
  · simp only [Tree.closeTree, h0, if_pos] at hok
    rw [← Except.ok.inj hok]
    exact hids
  · simp only [Tree.closeTree, h0, if_false] at hok
    cases hget : st.fileItems.get? idx with
    | none =>
      rw [hget] at hok
      exact Except.noConfusion hok
    | some target =>
      rw [hget] at hok
      simp only at hok
      by_cases hcond : (target.metadata.isDir &&
          match storeLookup st.expandStore target.path with
          | some v => v
          | none => false) = true
      · rw [if_pos hcond] at hok
        have hlen : idx < st.fileItems.length := getSomeLt hget
        have hst2 := Except.ok.inj hok
        rw [← hst2]
        intro i fi hgeti
        rw [updateCellsFileItems] at hgeti
        obtain ⟨_, _, _, hgetr, _⟩ := removeItemsAndCellsSpec
          { st with expandStore := storeRemove st.expandStore target.path }
          (idx + 1) _
          (by show idx + 1 ≤ st.fileItems.length; omega)
        rw [hgetr i] at hgeti
        by_cases h1 : i < idx + 1
        · rw [if_pos h1] at hgeti
          exact hids i fi hgeti
        · rw [if_neg h1] at hgeti
          cases hbase : st.fileItems.get? _ with
          | none =>
            rw [hbase] at hgeti
            exact Option.noConfusion hgeti
          | some fj =>
            rw [hbase] at hgeti
            have : fj.setId i = fi := Option.some.inj hgeti
            rw [← this, setIdId]
      · rw [if_neg hcond] at hok
        rw [← Except.ok.inj hok]
        exact hids

theorem changeRoot_ok_idsOk (fs : Fs) (fuel : Nat) (st : TreeState)
    (path : String) (st2 : TreeState) (hids : idsOk st)
    (hok : Tree.changeRoot fs fuel st path = Except.ok st2) : idsOk st2 := by
  cases hstat : fs.stat path with
  | none =>
    simp only [Tree.changeRoot, hstat] at hok
    rw [← Except.ok.inj hok]
    exact hids
  | some m =>
    simp only [Tree.changeRoot, hstat] at hok
    by_cases hdir : (!m.isDir) = true
    · rw [if_pos hdir] at hok
      rw [← Except.ok.inj hok]
      exact hids
    · rw [if_neg hdir] at hok
      obtain ⟨st3, hok3, _, _, _, hget3, _⟩ := insertItemsAndCellsSpec
        { st with expandStore := storeInsert st.expandStore path true,
                  colMap := fun _ => ([] : List Cell),
                  fileItems := ([] : List FileItem) } 0
        (FileItem.new path m 0 ::
          (entryInfoRec st.config (storeInsert st.expandStore path true) fs
            fuel (FileItem.new path m 0) 1).1)
        (by simp)
      rw [hok3] at hok
      rw [← Except.ok.inj hok]
      intro i fi hgeti
      rw [hget3 i] at hgeti
      have hnotlt : ¬ i < 0 := by omega
      rw [if_neg hnotlt] at hgeti
      by_cases h2 : i < 0 + (FileItem.new path m 0 ::
          (entryInfoRec st.config (storeInsert st.expandStore path true) fs
            fuel (FileItem.new path m 0) 1).1).length
      · rw [if_pos h2] at hgeti
        have hids2 : (FileItem.new path m 0 ::
            (entryInfoRec st.config (storeInsert st.expandStore path true) fs
              fuel (FileItem.new path m 0) 1).1).map FileItem.id =
            natRange 0 (FileItem.new path m 0 ::
              (entryInfoRec st.config (storeInsert st.expandStore path true) fs
                fuel (FileItem.new path m 0) 1).1).length := by
          have hrec := (entryInfoRecIds st.config
            (storeInsert st.expandStore path true) fs fuel
            (FileItem.new path m 0) 1).1
          simp only [List.map_cons, List.length_cons]
          rw [hrec]
          rfl
        have := idsOfMapRange _ _ hids2 (i - 0) fi hgeti
        omega
      · rw [if_neg h2] at hgeti
        simp at hgeti

theorem redrawFalse_ok_idsOk (fs : Fs) (fuel : Nat) (st : TreeState)
    (parentIdx : Nat) (st2 : TreeState) (hids : idsOk st)
    (hok : Tree.redrawSubtree fs fuel st parentIdx false = Except.ok st2) :
    idsOk st2 := by
  cases hget : st.fileItems.get? parentIdx with
  | none =>
    simp only [Tree.redrawSubtree, hget] at hok
    exact Except.noConfusion hok
  | some cur =>
    simp only [Tree.redrawSubtree, hget, Bool.false_eq_true, if_false] at hok
    rw [← Except.ok.inj hok]
    intro i fi hgeti
    rw [updateCellsFileItems] at hgeti
    exact hids i fi hgeti

theorem applyOpConfig (fs : Fs) (fuel : Nat) (st : TreeState) (op : TreeOp) :
    (applyOp fs fuel st op).config = st.config := by
  cases op with
  | openT idx =>
    simp only [applyOp]
    cases hok : Tree.openTree fs fuel st idx with
    | error _ => rfl
    | ok st2 =>
      by_cases h0 : idx = 0
      · simp only [Tree.openTree, h0, if_pos] at hok
        rw [← Except.ok.inj hok]
      · simp only [Tree.openTree, h0, if_false] at hok
        cases hget : st.fileItems.get? idx with
        | none => rw [hget] at hok; exact Except.noConfusion hok
        | some cur =>
          rw [hget] at hok
          simp only at hok
          by_cases hcond : (cur.metadata.isDir &&
              !(match storeLookup st.expandStore cur.path with
                | some v => v
                | none => false)) = true
          · rw [if_pos hcond] at hok
            have hlen : idx < st.fileItems.length := getSomeLt hget
            obtain ⟨st3, hok3, hcfg3, _, _, _, _⟩ := insertItemsAndCellsSpec
              (Tree.updateCells
                { st with expandStore := storeInsert st.expandStore cur.path true }
                idx (idx + 1))
              (idx + 1)
              (entryInfoRec st.config st.expandStore fs fuel cur (idx + 1)).1
              (by rw [updateCellsFileItems]
                  show idx + 1 ≤ st.fileItems.length
                  omega)
            rw [hok3] at hok
            rw [← Except.ok.inj hok]
            rw [hcfg3]
            rfl
          · rw [if_neg hcond] at hok
            rw [← Except.ok.inj hok]
  | closeT idx =>
    simp only [applyOp]
    cases hok : Tree.closeTree st idx with
    | error _ => rfl
    | ok st2 =>
      by_cases h0 : idx = 0
      · simp only [Tree.closeTree, h0, if_pos] at hok
        rw [← Except.ok.inj hok]
      · simp only [Tree.closeTree, h0, if_false] at hok
        cases hget : st.fileItems.get? idx with
        | none => rw [hget] at hok; exact Except.noConfusion hok
        | some target =>
          rw [hget] at hok
          simp only at hok
          by_cases hcond : (target.metadata.isDir &&
              match storeLookup st.expandStore target.path with
              | some v => v
              | none => false) = true
          · rw [if_pos hcond] at hok
            rw [← Except.ok.inj hok]
            rfl
          · rw [if_neg hcond] at hok
            rw [← Except.ok.inj hok]
  | rebuild path =>
    simp only [applyOp]
    cases hok : Tree.changeRoot fs fuel st path with
    | error _ => rfl
    | ok st2 =>
      cases hstat : fs.stat path with
      | none =>
        simp only [Tree.changeRoot, hstat] at hok
        rw [← Except.ok.inj hok]
      | some m =>
        simp only [Tree.changeRoot, hstat] at hok
        by_cases hdir : (!m.isDir) = true
        · rw [if_pos hdir] at hok
          rw [← Except.ok.inj hok]
        · rw [if_neg hdir] at hok
          obtain ⟨st3, hok3, hcfg3, _, _, _, _⟩ := insertItemsAndCellsSpec
            { st with expandStore := storeInsert st.expandStore path true,
                      colMap := fun _ => ([] : List Cell),
                      fileItems := ([] : List FileItem) } 0
            (FileItem.new path m 0 ::
              (entryInfoRec st.config (storeInsert st.expandStore path true) fs
                fuel (FileItem.new path m 0) 1).1)
            (by simp)
          rw [hok3] at hok
          rw [← Except.ok.inj hok]
          rw [hcfg3]
  | updateC idx =>
    simp only [applyOp]
    cases hok : Tree.redrawSubtree fs fuel st idx false with
    | error _ => rfl
    | ok st2 =>
      cases hget : st.fileItems.get? idx with
      | none =>
        simp only [Tree.redrawSubtree, hget] at hok
        exact Except.noConfusion hok
      | some cur =>
        simp only [Tree.redrawSubtree, hget, Bool.false_eq_true, if_false] at hok
        rw [← Except.ok.inj hok]
        rfl

theorem applyOpIdsOk (fs : Fs) (fuel : Nat) (st : TreeState) (op : TreeOp)
    (hids : idsOk st) : idsOk (applyOp fs fuel st op) := by
  cases op with
  | openT idx =>
    simp only [applyOp]
    cases hok : Tree.openTree fs fuel st idx with
    | error _ => exact hids
    | ok st2 => exact openTree_ok_idsOk fs fuel st idx st2 hids hok
  | closeT idx =>
    simp only [applyOp]
    cases hok : Tree.closeTree st idx with
    | error _ => exact hids
    | ok st2 => exact closeTree_ok_idsOk st idx st2 hids hok
  | rebuild path =>
    simp only [applyOp]
    cases hok : Tree.changeRoot fs fuel st path with
    | error _ => exact hids
    | ok st2 => exact changeRoot_ok_idsOk fs fuel st path st2 hids hok
  | updateC idx =>
    simp only [applyOp]
    cases hok : Tree.redrawSubtree fs fuel st idx false with
    | error _ => exact hids
    | ok st2 => exact redrawFalse_ok_idsOk fs fuel st idx st2 hids hok

/-- C1: starting from a fresh tree, after any sequence of `open_tree`,
`close_tree`, rebuild (`change_root`) and cells-only redraw
operations, every stored node id equals its position in the flattened
list. -/
theorem c1_ids_equal_positions (cfg : Config) (fs : Fs) (fuel : Nat)
    (ops : List TreeOp) :
    idsOk (applyOps fs fuel ops (initialTree cfg)) := by
  have haux : ∀ (l : List TreeOp) (st : TreeState), idsOk st →
      idsOk (l.foldl (applyOp fs fuel) st) := by
    intro l
    induction l with
    | nil => intro st h; exact h
    | cons op rest ih =>
      intro st h
      exact ih _ (applyOpIdsOk fs fuel st op h)
  refine haux ops (initialTree cfg) ?_
  intro i fi hget
  simp [initialTree] at hget

theorem updateCellsCellsOk (st : TreeState) (sl el : Nat) (h1 : sl ≤ el)
    (h2 : el ≤ st.fileItems.length) (hnd : st.config.columns.Nodup)
    (hcells : cellsOk st) : cellsOk (Tree.updateCells st sl el) := by
  intro c hc
  obtain ⟨cs, hlen, hcol⟩ := (updateCellsSpec st sl el).2.2.2.2 hnd c hc
  show ((Tree.updateCells st sl el).colMap c).length = st.fileItems.length
  rw [hcol]
  have hnc : (st.colMap c).length = st.fileItems.length := hcells c hc
  rw [listSpliceLength _ _ _ _ (by omega)]
  rw [hlen, listSliceLength]
  omega

theorem removeCellsOk (st : TreeState) (start e : Nat)
    (hs : start ≤ st.fileItems.length) (he : e ≤ st.fileItems.length)
    (hcells : cellsOk st) : cellsOk (Tree.removeItemsAndCells st start e) := by
  intro c hc
  obtain ⟨hcfg, _, hlenr, _, hcol⟩ := removeItemsAndCellsSpec st start e hs
  rw [hcol c, hlenr]
  have hnc : (st.colMap c).length = st.fileItems.length := hcells c hc
  rw [listSpliceLength _ _ _ _ (by omega)]
  simp only [List.length_nil]
  omega

theorem insertCellsOk (st : TreeState) (pos : Nat) (items : List FileItem)
    (st2 : TreeState) (hpos : pos ≤ st.fileItems.length)
    (hnd : st.config.columns.Nodup) (hcells : cellsOk st)
    (hok : Tree.insertItemsAndCells st pos items = Except.ok st2) :
    cellsOk st2 := by
  obtain ⟨st3, hok3, hcfg3, _, hlen3, _, hcol3⟩ :=
    insertItemsAndCellsSpec st pos items hpos
  rw [hok3] at hok
  have hst : st3 = st2 := Except.ok.inj hok
  rw [← hst]
  intro c hc
  rw [hcfg3] at hc
  obtain ⟨cs, hlencs, hcol⟩ := hcol3 hnd c hc
  rw [hcol, hlen3]
  have hnc : (st.colMap c).length = st.fileItems.length := hcells c hc
  rw [listSpliceLength _ _ _ _ (by omega)]
  omega

theorem takeWhileLenLe (p : α → Bool) (l : List α) :
    (l.takeWhile p).length ≤ l.length :=
  (List.takeWhile_prefix p).length_le

theorem applyOpCellsOk (fs : Fs) (fuel : Nat) (st : TreeState) (op : TreeOp)
    (hids : idsOk st) (hnd : st.config.columns.Nodup) (hcells : cellsOk st) :
    cellsOk (applyOp fs fuel st op) := by
  cases op with
  | openT idx =>
    simp only [applyOp]
    cases hok : Tree.openTree fs fuel st idx with
    | error _ => exact hcells
    | ok st2 =>
      by_cases h0 : idx = 0
      · simp only [Tree.openTree, h0, if_pos] at hok
        rw [← Except.ok.inj hok]
        exact hcells
      · simp only [Tree.openTree, h0, if_false] at hok
        cases hget : st.fileItems.get? idx with
        | none => rw [hget] at hok; exact Except.noConfusion hok
        | some cur =>
          rw [hget] at hok
          simp only at hok
          by_cases hcond : (cur.metadata.isDir &&
              !(match storeLookup st.expandStore cur.path with
                | some v => v
                | none => false)) = true
          · rw [if_pos hcond] at hok
            have hlen : idx < st.fileItems.length := getSomeLt hget
            have hcells1 : cellsOk
                { st with expandStore := storeInsert st.expandStore cur.path true } :=
              fun c hc => hcells c hc
            have hcells2 := updateCellsCellsOk
              { st with expandStore := storeInsert st.expandStore cur.path true }
              idx (idx + 1) (by omega) (by show idx + 1 ≤ st.fileItems.length; omega)
              hnd hcells1
            exact insertCellsOk
              (Tree.updateCells
                { st with expandStore := storeInsert st.expandStore cur.path true }
                idx (idx + 1))
              (idx + 1)
              (entryInfoRec st.config st.expandStore fs fuel cur (idx + 1)).1 st2
              (by rw [updateCellsFileItems]
                  show idx + 1 ≤ st.fileItems.length
                  omega)
              hnd hcells2 hok
          · rw [if_neg hcond] at hok
            rw [← Except.ok.inj hok]
            exact hcells
  | closeT idx =>
    simp only [applyOp]
    cases hok : Tree.closeTree st idx with
    | error _ => exact hcells
    | ok st2 =>
      by_cases h0 : idx = 0
      · simp only [Tree.closeTree, h0, if_pos] at hok
        rw [← Except.ok.inj hok]
        exact hcells
      · simp only [Tree.closeTree, h0, if_false] at hok
        cases hget : st.fileItems.get? idx with
        | none => rw [hget] at hok; exact Except.noConfusion hok
        | some target =>
          rw [hget] at hok
          simp only at hok
          by_cases hcond : (target.metadata.isDir &&
              match storeLookup st.expandStore target.path with
              | some v => v
              | none => false) = true
          · rw [if_pos hcond] at hok
            have hlen : idx < st.fileItems.length := getSomeLt hget
            have hcells1 : cellsOk
                { st with expandStore := storeRemove st.expandStore target.path } :=
              fun c hc => hcells c hc
            have hbound := takeWhileLenLe
              (fun fi => decide (target.level < fi.level))
              (st.fileItems.drop (idx + 1))
            rw [List.length_drop] at hbound
            have hcells2 := removeCellsOk
              { st with expandStore := storeRemove st.expandStore target.path }
              (idx + 1)
              (idx + 1 + (List.takeWhile
                (fun fi => decide (target.level < fi.level))
                (List.drop (idx + 1) st.fileItems)).length)
              (show idx + 1 ≤ st.fileItems.length by omega)
              (show idx + 1 + (List.takeWhile
                (fun fi => decide (target.level < fi.level))
                (List.drop (idx + 1) st.fileItems)).length ≤
                st.fileItems.length by omega)
              hcells1
            rw [← Except.ok.inj hok]
            refine updateCellsCellsOk _ idx (idx + 1) (by omega) ?_ hnd hcells2
            obtain ⟨_, _, hlenr, _, _⟩ := removeItemsAndCellsSpec
              { st with expandStore := storeRemove st.expandStore target.path }
              (idx + 1)
              (idx + 1 + (List.takeWhile
                (fun fi => decide (target.level < fi.level))
                (List.drop (idx + 1) st.fileItems)).length)
              (show idx + 1 ≤ st.fileItems.length by omega)
            rw [hlenr]
            omega
          · rw [if_neg hcond] at hok
            rw [← Except.ok.inj hok]
            exact hcells
  | rebuild path =>
    simp only [applyOp]
    cases hok : Tree.changeRoot fs fuel st path with
    | error _ => exact hcells
    | ok st2 =>
      cases hstat : fs.stat path with
      | none =>
        simp only [Tree.changeRoot, hstat] at hok
        rw [← Except.ok.inj hok]
        exact hcells
      | some m =>
        simp only [Tree.changeRoot, hstat] at hok
        by_cases hdir : (!m.isDir) = true
        · rw [if_pos hdir] at hok
          rw [← Except.ok.inj hok]
          exact hcells
        · rw [if_neg hdir] at hok
          have hcells1 : cellsOk
              { st with expandStore := storeInsert st.expandStore path true,
                        colMap := fun _ => ([] : List Cell),
                        fileItems := ([] : List FileItem) } := by
            intro c hc
            rfl
          exact insertCellsOk
            { st with expandStore := storeInsert st.expandStore path true,
                      colMap := fun _ => ([] : List Cell),
                      fileItems := ([] : List FileItem) } 0
            (FileItem.new path m 0 ::
              (entryInfoRec st.config (storeInsert st.expandStore path true) fs
                fuel (FileItem.new path m 0) 1).1) st2
            (by simp) hnd hcells1 hok
  | updateC idx =>
    simp only [applyOp]
    cases hok : Tree.redrawSubtree fs fuel st idx false with
    | error _ => exact hcells
    | ok st2 =>
      cases hget : st.fileItems.get? idx with
      | none =>
        simp only [Tree.redrawSubtree, hget] at hok
        exact Except.noConfusion hok
      | some cur =>
        simp only [Tree.redrawSubtree, hget, Bool.false_eq_true, if_false] at hok
        have hlen : idx < st.fileItems.length := getSomeLt hget
        have hid : cur.id = idx := hids idx cur hget
        have hbound := takeWhileLenLe
          (fun fi => decide (cur.level < fi.level))
          (st.fileItems.drop (cur.id + 1))
        rw [List.length_drop] at hbound
        rw [← Except.ok.inj hok]
        refine updateCellsCellsOk st (cur.id + 1) _ (by omega) (by omega) hnd hcells

/-- C7 (amended): provided the configured column list is duplicate
free, starting from a fresh tree, after any sequence of rebuild,
`open_tree`, `close_tree` and cells-only redraw operations, every
configured column holds exactly one cell per node. The proviso is
necessary: a duplicated column makes every edit splice that column's
cell vector once per occurrence, breaking the count (see the
counterexample). -/
theorem c7_cell_lists_match_node_list (cfg : Config) (fs : Fs) (fuel : Nat)
    (ops : List TreeOp) (hnd : cfg.columns.Nodup) :
    cellsOk (applyOps fs fuel ops (initialTree cfg)) := by
  have haux : ∀ (l : List TreeOp) (st : TreeState), idsOk st →
      st.config.columns.Nodup → cellsOk st →
      cellsOk (l.foldl (applyOp fs fuel) st) := by
    intro l
    induction l with
    | nil => intro st _ _ h; exact h
    | cons op rest ih =>
      intro st h1 h2 h3
      refine ih _ (applyOpIdsOk fs fuel st op h1) ?_
        (applyOpCellsOk fs fuel st op h1 h2 h3)
      rw [applyOpConfig]
      exact h2
  refine haux ops (initialTree cfg) ?_ hnd ?_
  · intro i fi h
    simp [initialTree] at h
  · intro c hc
    rfl

/-- Witness for C7: the default seven-column configuration is
duplicate free, so the invariant holds along a concrete rebuild, open,
close sequence. -/
theorem c7_cell_lists_match_node_list_witness :
    cellsOk (applyOps fsW 9
      [TreeOp.rebuild "/r", TreeOp.openT 1, TreeOp.closeT 1]
      (initialTree defaultConfig)) :=
  c7_cell_lists_match_node_list defaultConfig fsW 9
    [TreeOp.rebuild "/r", TreeOp.openT 1, TreeOp.closeT 1] (by decide)

/-- C7 counterexample: the configuration parser accepts the duplicated
column list `mark:mark`, and after a single rebuild from a fresh tree
under that configuration the tree holds three nodes but six `MARK`
cells (`insert_items_and_cells` splices the `MARK` cell vector once
per occurrence of the column), so the per-column cell count does not
equal the node count as the claim states. -/
theorem c7_duplicate_column_breaks_cell_count :
    configColumnsUpdate "mark:mark"
      = some [ColumnType.MARK, ColumnType.MARK] ∧
    stDup.fileItems.length = 3 ∧
    (stDup.colMap ColumnType.MARK).length = 6 ∧
    ¬ cellsOk stDup := by
  refine ⟨by rfl, by rfl, by rfl, ?_⟩
  intro h
  exact absurd (h ColumnType.MARK (by decide)) (by decide)

theorem takeWhileLengthEq (p : α → Bool) :
    ∀ (k : Nat) (l : List α), k ≤ l.length →
    (∀ j x, j < k → l.get? j = some x → p x = true) →
    (∀ x, l.get? k = some x → p x = false) →
    (l.takeWhile p).length = k := by
  intro k
  induction k with
  | zero =>
    intro l _ _ h2
    cases l with
    | nil => simp
    | cons x xs =>
      have := h2 x rfl
      simp [List.takeWhile_cons, this]
  | succ k ih =>
    intro l hk h1 h2
    cases l with
    | nil => simp at hk
    | cons x xs =>
      have hx : p x = true := h1 0 x (by omega) rfl
      simp only [List.takeWhile_cons, hx, if_true, List.length_cons]
      rw [ih xs (by simp at hk; omega)
        (fun j y hj hy => h1 (j + 1) y (by omega) hy)
        (fun y hy => h2 y hy)]

/-- C3: opening a closed directory row and closing it again, with no
filesystem change in between, restores the exact previous node list:
same entries, same order, same ids. The hypotheses are the
preconditions of the claim: the target is a non-root closed directory
row, the row after it does not lie below it (the flattened-tree shape
at a closed directory), and ids equal positions (the C1 invariant). -/
theorem c3_open_close_restores_list (fs : Fs) (fuel : Nat) (st : TreeState)
    (idx : Nat) (h0 : idx ≠ 0) (hclosed : isClosedDirAt st idx = true)
    (hnext : nextLevelLeAt st idx = true) (hids : idsOk st) :
    ∃ st1 st2, Tree.openTree fs fuel st idx = Except.ok st1 ∧
      Tree.closeTree st1 idx = Except.ok st2 ∧
      st2.fileItems = st.fileItems := by
  cases hget : st.fileItems.get? idx with
  | none =>
    rw [isClosedDirAt, hget] at hclosed
    exact Bool.noConfusion hclosed
  | some cur =>
    rw [isClosedDirAt, hget] at hclosed
    simp only [Bool.and_eq_true, Bool.not_eq_eq_eq_not, Bool.not_true] at hclosed
    obtain ⟨hdir, hnop⟩ := hclosed
    have hmatch : (match storeLookup st.expandStore cur.path with
        | some v => v
        | none => false) = false := hnop
    have hcond : (cur.metadata.isDir &&
        !(match storeLookup st.expandStore cur.path with
          | some v => v
          | none => false)) = true := by
      rw [hmatch, hdir]
      rfl
    have hlen : idx < st.fileItems.length := getSomeLt hget
    have hopen : Tree.openTree fs fuel st idx =
        Tree.insertItemsAndCells
          (Tree.updateCells
            { st with expandStore := storeInsert st.expandStore cur.path true }
            idx (idx + 1))
          (idx + 1)
          (entryInfoRec st.config st.expandStore fs fuel cur (idx + 1)).1 := by
      simp only [Tree.openTree, h0, if_false, hget]
      rw [if_pos hcond]
    have hlev : ∀ fi ∈ (entryInfoRec st.config st.expandStore fs fuel cur
        (idx + 1)).1, cur.level < fi.level :=
      fun fi => entryInfoRecLevels st.config st.expandStore fs fuel cur (idx + 1) fi
    obtain ⟨st1, hok1, hcfg1, hstore1, hlen1, hget1, _⟩ :=
      insertItemsAndCellsSpec
        (Tree.updateCells
          { st with expandStore := storeInsert st.expandStore cur.path true }
          idx (idx + 1))
        (idx + 1)
        (entryInfoRec st.config st.expandStore fs fuel cur (idx + 1)).1
        (by rw [updateCellsFileItems]
            show idx + 1 ≤ st.fileItems.length
            omega)
    have hopenok : Tree.openTree fs fuel st idx = Except.ok st1 := by
      rw [hopen]
      exact hok1
    have hstore1b : st1.expandStore = storeInsert st.expandStore cur.path true :=
      hstore1
    have hget1b : ∀ i, st1.fileItems.get? i =
        if i < idx + 1 then st.fileItems.get? i
        else if i < idx + 1 + (entryInfoRec st.config st.expandStore fs fuel cur
            (idx + 1)).1.length then
          (entryInfoRec st.config st.expandStore fs fuel cur (idx + 1)).1.get?
            (i - (idx + 1))
        else (st.fileItems.get? (i - (entryInfoRec st.config st.expandStore fs
          fuel cur (idx + 1)).1.length)).map (fun fi => fi.setId i) :=
      hget1
    have hlen1b : st1.fileItems.length = st.fileItems.length +
        (entryInfoRec st.config st.expandStore fs fuel cur (idx + 1)).1.length :=
      hlen1
    have hget1idx : st1.fileItems.get? idx = some cur := by
      rw [hget1b idx, if_pos (by omega)]
      exact hget
    have hlookup1 : storeLookup st1.expandStore cur.path = some true := by
      rw [hstore1b, storeLookupInsert]
      simp
    have hcond2 : (cur.metadata.isDir &&
        match storeLookup st1.expandStore cur.path with
        | some v => v
        | none => false) = true := by
      rw [hlookup1, hdir]
      rfl
    have hclose : Tree.closeTree st1 idx = Except.ok
        (Tree.updateCells
          (Tree.removeItemsAndCells
            { st1 with expandStore := storeRemove st1.expandStore cur.path }
            (idx + 1)
            (idx + 1 + (List.takeWhile
              (fun fi => decide (cur.level < fi.level))
              (List.drop (idx + 1) st1.fileItems)).length))
          idx (idx + 1)) := by
      simp only [Tree.closeTree, h0, if_false, hget1idx]
      rw [if_pos hcond2]
    have hE : (List.takeWhile (fun fi => decide (cur.level < fi.level))
        (List.drop (idx + 1) st1.fileItems)).length =
        (entryInfoRec st.config st.expandStore fs fuel cur (idx + 1)).1.length := by
      apply takeWhileLengthEq
      · rw [List.length_drop]
        omega
      · intro j x hj hx
        rw [listDropGet, hget1b (idx + 1 + j)] at hx
        rw [if_neg (by omega), if_pos (by omega)] at hx
        have harith : idx + 1 + j - (idx + 1) = j := by omega
        rw [harith] at hx
        have hmem := List.get?_mem hx
        exact decide_eq_true (hlev x hmem)
      · intro x hx
        rw [listDropGet, hget1b _] at hx
        rw [if_neg (by omega), if_neg (by omega)] at hx
        have harith : idx + 1 + (entryInfoRec st.config st.expandStore fs fuel
            cur (idx + 1)).1.length - (entryInfoRec st.config st.expandStore fs
            fuel cur (idx + 1)).1.length = idx + 1 := by omega
        rw [harith] at hx
        cases hnxt : st.fileItems.get? (idx + 1) with
        | none =>
          rw [hnxt] at hx
          exact Option.noConfusion hx
        | some nxt =>
          rw [hnxt] at hx
          have hxeq : nxt.setId _ = x := Option.some.inj hx
          rw [nextLevelLeAt, hget, hnxt] at hnext
          have hle : nxt.level ≤ cur.level := of_decide_eq_true hnext
          rw [← hxeq, setIdLevel]
          simp only [decide_eq_false_iff_not]
          omega
    rw [hE] at hclose
    obtain ⟨_, _, _, hgetr, _⟩ := removeItemsAndCellsSpec
      { st1 with expandStore := storeRemove st1.expandStore cur.path }
      (idx + 1)
      (idx + 1 + (entryInfoRec st.config st.expandStore fs fuel cur
        (idx + 1)).1.length)
      (by show idx + 1 ≤ st1.fileItems.length; omega)
    refine ⟨st1, _, hopenok, hclose, ?_⟩
    show (Tree.removeItemsAndCells _ _ _).fileItems = st.fileItems
    apply List.ext
    intro i
    rw [hgetr i]
    by_cases h1 : i < idx + 1
    · rw [if_pos h1]
      show st1.fileItems.get? i = st.fileItems.get? i
      rw [hget1b i, if_pos h1]
    · rw [if_neg h1]
      show (st1.fileItems.get? _).map _ = st.fileItems.get? i
      have harith : idx + 1 + (entryInfoRec st.config st.expandStore fs fuel cur
          (idx + 1)).1.length + (i - (idx + 1)) =
          i + (entryInfoRec st.config st.expandStore fs fuel cur
            (idx + 1)).1.length := by omega
      rw [harith, hget1b _]
      rw [if_neg (by omega), if_neg (by omega)]
      have harith2 : i + (entryInfoRec st.config st.expandStore fs fuel cur
          (idx + 1)).1.length - (entryInfoRec st.config st.expandStore fs fuel
          cur (idx + 1)).1.length = i := by omega
      rw [harith2]
      cases hsti : st.fileItems.get? i with
      | none => rfl
      | some fj =>
        simp only [Option.map_some']
        rw [setIdSetId]
        have : fj.id = i := hids i fj hsti
        rw [← this, setIdSelf]

theorem idsFromSpec (l : List FileItem) : ∀ (a : Nat), idsFrom l a = true →
    ∀ i fi, l.get? i = some fi → fi.id = a + i := by
  induction l with
  | nil =>
    intro a _ i fi h
    simp at h
  | cons x xs ih =>
    intro a h i fi hg
    simp only [idsFrom, Bool.and_eq_true, beq_iff_eq] at h
    obtain ⟨hx, hrest⟩ := h
    cases i with
    | zero =>
      have hxf : x = fi := Option.some.inj hg
      rw [← hxf, hx]
      omega
    | succ n =>
      have := ih (a + 1) hrest n fi hg
      omega

theorem idsOkOfIdsFrom (st : TreeState) (h : idsFrom st.fileItems 0 = true) :
    idsOk st := by
  intro i fi hg
  have := idsFromSpec st.fileItems 0 h i fi hg
  omega

/-- Witness for C3: open then close on the closed directory row 1
(`/r/d`) of the rebuilt state restores the node list. -/
theorem c3_open_close_restores_list_witness :
    ∃ st1 st2, Tree.openTree fsW 9 stW 1 = Except.ok st1 ∧
      Tree.closeTree st1 1 = Except.ok st2 ∧
      st2.fileItems = stW.fileItems :=
  c3_open_close_restores_list fsW 9 stW 1 (by decide) (by rfl) (by rfl)
    (idsOkOfIdsFrom stW (by rfl))
